import Mathlib

/-! Rule store and role manager of `manager/rbac/role`.

A shallow embedding of `model.go` and `rule.go` (package `role`).

* Go strings are Lean `String`s, `[]string` is `List String`, `[][]string` is
  `List (List String)`.  A Lean `String` is a sequence of characters, a Go
  string a sequence of bytes; the two part only where a string is cut inside a
  character, which `key[:1]` can do (`firstByte`).
* A Go map is an association list searched from the front (`mapGet`, `mapSet`).
  The functions do not need the keys to be distinct; the maps that `newModel`
  builds have one entry per key.  Go leaves the iteration order of a map
  unspecified; a loop over a map is embedded as a loop over the list.
* A Go panic (nil pointer dereference, index out of range, an explicit
  `panic(...)`) is the result `none`; the state reached before the panic is
  then not observable.
* A Go `int` that indexes a tuple (`fieldIndex`) is an `Int`; `rule[i]` is
  `goIndex rule i`, which panics for a negative `i` as for one past the end.
  The sum `fieldIndex + i` is taken without wrap-around: a sum that wraps in
  Go is negative there and at least `2^63` here, either way an index that no
  tuple has.
-/

namespace Ladon

/-! ## Go maps and library functions -/

/-- Go map lookup `m[k]`: the first entry with key `k`, `none` when the key is absent. -/
def mapGet {β : Type} (k : String) : List (String × β) → Option β
  | [] => none
  | (k', v) :: rest => if k' = k then some v else mapGet k rest

/-- Go map assignment `m[k] = v`: replaces the entry of `k`, or adds one. -/
def mapSet {β : Type} (k : String) (v : β) : List (String × β) → List (String × β)
  | [] => [(k, v)]
  | (k', v') :: rest => if k' = k then (k, v) :: rest else (k', v') :: mapSet k v rest

/-- Go `strings.Split(s, ", ")` on the characters of `s`; `acc` holds the
characters of the current piece, last one first. -/
def splitCommaSpace : List Char → List Char → List (List Char)
  | [], acc => [acc.reverse]
  | [c], acc => [(c :: acc).reverse]
  | c₁ :: c₂ :: rest, acc =>
    if c₁ = ',' ∧ c₂ = ' ' then acc.reverse :: splitCommaSpace rest []
    else splitCommaSpace (c₂ :: rest) (c₁ :: acc)

/-- Go `strings.Split(s, ", ")`. -/
def stringsSplit (s : String) : List String :=
  (splitCommaSpace s.data []).map String.mk

/-- Go `strings.Count(s, "_")`: the number of underscores of `s`. -/
def stringsCount (s : String) : Nat :=
  s.data.count '_'

/-- Go `strings.HasPrefix(s, "#")`. -/
def stringsHasPrefix (s : String) : Bool :=
  match s.data with
  | c :: _ => decide (c = '#')
  | [] => false

/-! ## Helpers of the package that are not among the sources -/

/-- Modelled from the spec: `ArrayEquals` (package utilities, not among the
sources).  "Two tuples are equal iff same length and all fields equal
positionally." -/
def ArrayEquals (a b : List String) : Bool :=
  a.length == b.length && (a.zip b).all (fun p => p.1 == p.2)

/-- Replaces every `r.` by `r_` and every `p.` by `p_`. -/
def escapeChars : List Char → List Char
  | [] => []
  | [c] => [c]
  | c₁ :: c₂ :: rest =>
    if (c₁ = 'r' ∨ c₁ = 'p') ∧ c₂ = '.' then c₁ :: '_' :: escapeChars rest
    else c₁ :: escapeChars (c₂ :: rest)

/-- Modelled from the spec: `EscapeAssertion` (package utilities, not among the
sources).  "escape any embedded assertion-reference tokens": a reference
`r.x` or `p.x` becomes `r_x` or `p_x`. -/
def EscapeAssertion (s : String) : String :=
  String.mk (escapeChars s.data)

/-- Modelled from the spec: `RemoveComments` (package utilities, not among the
sources).  "strip line comments (prefix `#`)": everything from the first `#`
on is dropped. -/
def RemoveComments (s : String) : String :=
  String.mk (s.data.takeWhile (fun c => c != '#'))

/-- Modelled from the spec: `ArrayRemoveDuplicates` (package utilities, not
among the sources).  "distinct values ..., duplicates removed, order not
significant": each value is kept once, where it first occurs. -/
def ArrayRemoveDuplicates : List String → List String
  | [] => []
  | x :: xs => x :: (ArrayRemoveDuplicates xs).filter (fun y => y != x)

/-! ## The role hierarchy resolver (`RoleManager`)

`RoleManager`, `newRoleManager`, `AddLink`, `GetRoles`, `GetUsers` and `Clear`
are used by `model.go` and `rule.go` but their file is not among the sources.
-/

/-- One inheritance edge: `child` inherits from `parent` in `domain`.  The
domain is the list of the variadic `domain ...string` arguments: `[]` is the
implicit default domain, `[d]` is domain `d`. -/
structure Link where
  child : String
  parent : String
  domain : List String
  deriving DecidableEq, Repr

/-- Modelled from the spec: the resolver state (`RoleManager`, not among the
sources).  "a directed graph over `(name, domain)` nodes;
`maxHierarchyDepth` constructor parameter bounding traversal".  The graph is
its list of edges, in insertion order. -/
structure RoleManager where
  links : List Link
  maxHierarchyDepth : Nat
  deriving DecidableEq, Repr

/-- Modelled from the spec: `newRoleManager(maxHierarchyDepth)` (not among the
sources): an empty graph with the given depth bound. -/
def newRoleManager (maxHierarchyDepth : Nat) : RoleManager :=
  { links := [], maxHierarchyDepth := maxHierarchyDepth }

/-- Modelled from the spec: `RoleManager.Clear` (not among the sources).
"discards all nodes/edges across all domains". -/
def RoleManager.Clear (rm : RoleManager) : RoleManager :=
  { rm with links := [] }

/-- Modelled from the spec: `RoleManager.AddLink` (not among the sources).
"idempotent; inserts an edge child→parent in the given domain (or the default
domain if none given).  Safe to call with an already-existing edge (no
duplicate edge state, no error)." -/
def RoleManager.AddLink (rm : RoleManager) (child parent : String)
    (domain : List String) : RoleManager :=
  if Link.mk child parent domain ∈ rm.links then rm
  else { rm with links := rm.links ++ [Link.mk child parent domain] }

/-- The roles `name` inherits from directly in `domain`, in insertion order. -/
def RoleManager.parentsOf (rm : RoleManager) (domain : List String) (name : String) :
    List String :=
  (rm.links.filter (fun l => decide (l.domain = domain ∧ l.child = name))).map Link.parent

/-- The names that inherit directly from `name` in `domain`, in insertion order. -/
def RoleManager.childrenOf (rm : RoleManager) (domain : List String) (name : String) :
    List String :=
  (rm.links.filter (fun l => decide (l.domain = domain ∧ l.parent = name))).map Link.child

/-- The candidates that are not yet visited, each once, in order of appearance. -/
def discover (visited : List String) : List String → List String
  | [] => []
  | c :: cs =>
    if c ∈ visited then discover visited cs
    else c :: discover (c :: visited) cs

/-- Breadth-first traversal: `depth` more levels from `frontier`, never
returning a node of `visited`; the result is in discovery (level) order. -/
def bfs (next : String → List String) : Nat → List String → List String → List String
  | 0, _, _ => []
  | depth + 1, frontier, visited =>
    let found := discover visited (frontier.flatMap next)
    if found.isEmpty then []
    else found ++ bfs next depth found (visited ++ found)

/-- Modelled from the spec: `RoleManager.GetRoles` (not among the sources).
"the transitive closure of roles reachable upward from `name` (excluding
`name` itself), computed by breadth-first traversal bounded by
`maxHierarchyDepth`, with a visited-set to remain correct and terminating
under cycles; result deduplicated, order = discovery order (BFS level
order)." -/
def RoleManager.GetRoles (rm : RoleManager) (name : String) (domain : List String) :
    List String :=
  bfs (rm.parentsOf domain) rm.maxHierarchyDepth [name] [name]

/-- Modelled from the spec: `RoleManager.GetUsers` (not among the sources).
"the reverse closure — every node from which `role` is reachable — computed
symmetrically over reversed edges." -/
def RoleManager.GetUsers (rm : RoleManager) (name : String) (domain : List String) :
    List String :=
  bfs (rm.childrenOf domain) rm.maxHierarchyDepth [name] [name]

/-! ## `model.go` -/

/-- The value of a `*RoleManager` field.  The package allocates one
`RoleManager`, in `newRuleManager`; a pointer is Go's `nil` or the address of
that resolver, whose contents are the `rm` field of the `RuleManager`. -/
inductive RMPtr where
  | nil
  | rm
  deriving DecidableEq, Repr

/-- The struct `Assertion`. -/
structure Assertion where
  Key : String
  Value : String
  Tokens : List String
  Rule : List (List String)
  RM : RMPtr
  deriving DecidableEq, Repr

/-- The type `AssertionMap`: `map[string]*Assertion`. -/
abbrev AssertionMap := List (String × Assertion)

/-- The type `Model`: `map[string]AssertionMap`. -/
abbrev Model := List (String × AssertionMap)

/-- The table `sectionKVMap`. -/
def sectionKVMap : List (String × String) :=
  [("r", "sub, dom, obj, act"),
   ("p", "sub, dom, obj, act"),
   ("g", "_, _, _"),
   ("e", "some(where (p.eft == allow)) && !some(where (p.eft == deny))"),
   ("m", "g(r.sub, p.sub, r.dom) && r.dom == p.dom && keyMatch(r.obj, p.obj) && regexMatch(r.act, p.act)")]

/-- The expression `model[sec][key]`: the assertion pointer, `none` for the
nil pointer that a missing section or key gives. -/
def Model.assertion (model : Model) (sec key : String) : Option Assertion :=
  match mapGet sec model with
  | none => none
  | some am => mapGet key am

/-- The assignment `model[sec][key].Rule = rule` through a non-nil pointer. -/
def Model.setRule (model : Model) (sec key : String) (rule : List (List String)) : Model :=
  match mapGet sec model with
  | none => model
  | some am =>
    match mapGet key am with
    | none => model
    | some ast => mapSet sec (mapSet key { ast with Rule := rule } am) model

/-- The method `Model.addDef`. -/
def Model.addDef (model : Model) (sec key value : String) : Model × Bool :=
  if value = "" then (model, false)
  else
    let ast : Assertion :=
      if sec = "r" ∨ sec = "p" then
        { Key := key, Value := value,
          Tokens := (stringsSplit value).map (fun t => key ++ "_" ++ t),
          Rule := [], RM := RMPtr.nil }
      else
        { Key := key, Value := RemoveComments (EscapeAssertion value),
          Tokens := [], Rule := [], RM := RMPtr.nil }
    let am : AssertionMap :=
      match mapGet sec model with
      | none => []
      | some am => am
    (mapSet sec (mapSet key ast am) model, true)

/-- The function `loadAssertion`; `none` is its `panic`. -/
def loadAssertion (model : Model) (sec key : String) : Option (Model × Bool) :=
  match mapGet key sectionKVMap with
  | some value => some (model.addDef sec key value)
  | none => none

/-- The function `loadSection`. -/
def loadSection (model : Model) (sec : String) : Option Model :=
  (loadAssertion model sec sec).map Prod.fst

/-- The function `newModel`, with the panic of `loadAssertion` kept. -/
def newModel? : Option Model :=
  (((((some []).bind (fun m => loadSection m "r")).bind (fun m => loadSection m "p")).bind
    (fun m => loadSection m "e")).bind (fun m => loadSection m "m")).bind
    (fun m => loadSection m "g")

/-- The function `newModel`: none of its five `loadSection` calls panics
(`newModel_eq`), so it is the model they build. -/
def newModel : Model :=
  match newModel? with
  | some m => m
  | none => []

/-- One assertion of `Model.Clear`: `ast.Rule = nil`. -/
def clearRules (am : AssertionMap) : AssertionMap :=
  am.map (fun e => (e.1, { e.2 with Rule := [] }))

/-- The loop `for _, ast := range model[sec] { ast.Rule = nil }`. -/
def Model.clearSection (model : Model) (sec : String) : Model :=
  match mapGet sec model with
  | none => model
  | some am => mapSet sec (clearRules am) model

/-- The method `Model.Clear`. -/
def Model.Clear (model : Model) : Model :=
  (model.clearSection "p").clearSection "g"

/-- The method `Model.GetRule`. -/
def Model.GetRule (model : Model) (sec ptype : String) : Option (List (List String)) :=
  (model.assertion sec ptype).map Assertion.Rule

/-- The index expression `rule[i]` for a Go `int` `i`: `none` is the panic
"index out of range", for a negative `i` and for `i` at or past `len(rule)`. -/
def goIndex (rule : List String) (i : Int) : Option String :=
  if i < 0 then none else rule.get? i.toNat

/-- The inner loop of `GetFilteredRule` and `RemoveFilteredRule` on one rule,
from position `i` of `fieldValues` on: the final value of `matched`, `none`
when `rule[fieldIndex+i]` is out of range. -/
def matchLoop (rule : List String) (fieldIndex : Int) : Nat → List String → Option Bool
  | _, [] => some true
  | i, fieldValue :: rest =>
    if fieldValue ≠ "" then
      match goIndex rule (fieldIndex + i) with
      | none => none
      | some field => if field ≠ fieldValue then some false else matchLoop rule fieldIndex (i + 1) rest
    else matchLoop rule fieldIndex (i + 1) rest

/-- The outer loop of `GetFilteredRule`, with `res` the rules found so far. -/
def getFilteredLoop (fieldIndex : Int) (fieldValues : List String) :
    List (List String) → List (List String) → Option (List (List String))
  | [], res => some res
  | rule :: rest, res =>
    match matchLoop rule fieldIndex 0 fieldValues with
    | none => none
    | some true => getFilteredLoop fieldIndex fieldValues rest (res ++ [rule])
    | some false => getFilteredLoop fieldIndex fieldValues rest res

/-- The method `Model.GetFilteredRule`. -/
def Model.GetFilteredRule (model : Model) (sec ptype : String) (fieldIndex : Int)
    (fieldValues : List String) : Option (List (List String)) :=
  match model.assertion sec ptype with
  | none => none
  | some ast => getFilteredLoop fieldIndex fieldValues ast.Rule []

/-- The loop of `HasRule`. -/
def hasRuleLoop (rule : List String) : List (List String) → Bool
  | [] => false
  | r :: rest => if ArrayEquals rule r then true else hasRuleLoop rule rest

/-- The method `Model.HasRule`. -/
def Model.HasRule (model : Model) (sec ptype : String) (rule : List String) : Option Bool :=
  match model.assertion sec ptype with
  | none => none
  | some ast => some (hasRuleLoop rule ast.Rule)

/-- The method `Model.Add`. -/
def Model.Add (model : Model) (sec ptype : String) (rule : List String) :
    Option (Model × Bool) :=
  match model.HasRule sec ptype rule with
  | none => none
  | some true => some (model, false)
  | some false =>
    match model.assertion sec ptype with
    | none => none
    | some ast => some (model.setRule sec ptype (ast.Rule ++ [rule]), true)

/-- The loop of `Remove`: the index of the first rule equal to `rule`,
counted from `i`. -/
def removeIndex (rule : List String) : List (List String) → Nat → Option Nat
  | [], _ => none
  | r :: rest, i => if ArrayEquals rule r then some i else removeIndex rule rest (i + 1)

/-- The method `Model.Remove`. -/
def Model.Remove (model : Model) (sec ptype : String) (rule : List String) :
    Option (Model × Bool) :=
  match model.assertion sec ptype with
  | none => none
  | some ast =>
    match removeIndex rule ast.Rule 0 with
    | some i => some (model.setRule sec ptype (ast.Rule.take i ++ ast.Rule.drop (i + 1)), true)
    | none => some (model, false)

/-- The outer loop of `RemoveFilteredRule`, with the current `tmp` and `res`. -/
def removeFilteredLoop (fieldIndex : Int) (fieldValues : List String) :
    List (List String) → List (List String) → Bool → Option (List (List String) × Bool)
  | [], tmp, res => some (tmp, res)
  | rule :: rest, tmp, res =>
    match matchLoop rule fieldIndex 0 fieldValues with
    | none => none
    | some true => removeFilteredLoop fieldIndex fieldValues rest tmp true
    | some false => removeFilteredLoop fieldIndex fieldValues rest (tmp ++ [rule]) res

/-- The method `Model.RemoveFilteredRule`. -/
def Model.RemoveFilteredRule (model : Model) (sec ptype : String) (fieldIndex : Int)
    (fieldValues : List String) : Option (Model × Bool) :=
  match model.assertion sec ptype with
  | none => none
  | some ast =>
    match removeFilteredLoop fieldIndex fieldValues ast.Rule [] false with
    | none => none
    | some (tmp, res) => some (model.setRule sec ptype tmp, res)

/-- The loop of `GetValuesForFieldInRule`, with the `values` collected so far;
`none` when `rule[fieldIndex]` is out of range. -/
def valuesLoop (fieldIndex : Int) : List (List String) → List String → Option (List String)
  | [], values => some values
  | rule :: rest, values =>
    match goIndex rule fieldIndex with
    | none => none
    | some value => valuesLoop fieldIndex rest (values ++ [value])

/-- The method `Model.GetValuesForFieldInRule`. -/
def Model.GetValuesForFieldInRule (model : Model) (sec ptype : String) (fieldIndex : Int) :
    Option (List String) :=
  match model.assertion sec ptype with
  | none => none
  | some ast =>
    match valuesLoop fieldIndex ast.Rule [] with
    | none => none
    | some values => some (ArrayRemoveDuplicates values)

/-- The loop of `Assertion.buildRoleLinks` over the rules, with the resolver
reached so far; `none` is one of its two panics (or an index out of range). -/
def buildLinksLoop (count : Nat) : List (List String) → RoleManager → Option RoleManager
  | [], rm => some rm
  | rule :: rest, rm =>
    if count < 2 then none
    else if rule.length < count then none
    else if count = 2 then
      match rule.get? 0, rule.get? 1 with
      | some r0, some r1 => buildLinksLoop count rest (rm.AddLink r0 r1 [])
      | _, _ => none
    else if count = 3 then
      match rule.get? 0, rule.get? 1, rule.get? 2 with
      | some r0, some r1, some r2 => buildLinksLoop count rest (rm.AddLink r0 r1 [r2])
      | _, _, _ => none
    else if count = 4 then
      match rule.get? 0, rule.get? 1, rule.get? 2, rule.get? 3 with
      | some r0, some r1, some r2, some r3 =>
        buildLinksLoop count rest (rm.AddLink r0 r1 [r2, r3])
      | _, _, _, _ => none
    else buildLinksLoop count rest rm

/-- The method `Assertion.buildRoleLinks`: `ast.RM = rm`, then the loop.
`LogPrint` and `PrintRoles` only write to the log. -/
def Assertion.buildRoleLinks (ast : Assertion) (rm : RoleManager) :
    Option (Assertion × RoleManager) :=
  match buildLinksLoop (stringsCount ast.Value) ast.Rule rm with
  | none => none
  | some rm' => some ({ ast with RM := RMPtr.rm }, rm')

/-- The loop of `Model.buildRoleLinks` over the assertions of section `g`. -/
def buildSectionLinks : AssertionMap → RoleManager → Option (AssertionMap × RoleManager)
  | [], rm => some ([], rm)
  | (key, ast) :: rest, rm =>
    match ast.buildRoleLinks rm with
    | none => none
    | some (ast', rm') =>
      match buildSectionLinks rest rm' with
      | none => none
      | some (rest', rm'') => some ((key, ast') :: rest', rm'')

/-- The method `Model.buildRoleLinks`. -/
def Model.buildRoleLinks (model : Model) (rm : RoleManager) : Option (Model × RoleManager) :=
  match mapGet "g" model with
  | none => some (model, rm)
  | some am =>
    match buildSectionLinks am rm with
    | none => none
    | some (am', rm') => some (mapSet "g" am' model, rm')

/-- The first byte of `key` as a string, `key[:1]`: `none` when `key` is empty
(slice bounds out of range).  A character below 128 is encoded in one byte and
the slice is the string of that character.  A character from 128 on is encoded
in several bytes and the slice is the first of them alone, which is the text of
no character sequence: the strings of this embedding, and with them the section
names of a `Model`, are character sequences, so that slice names no section,
`model[sec]` is the nil map, `model[sec][key]` the nil pointer and `.Rule`
panics.  That panic is `none` here. -/
def firstByte (key : String) : Option String :=
  match key.data with
  | [] => none
  | c :: _ => if c.toNat < 128 then some (String.mk [c]) else none

/-- The function `loadRuleLineToModel`. -/
def loadRuleLineToModel (line : String) (model : Model) : Option Model :=
  if line = "" then some model
  else if stringsHasPrefix line then some model
  else
    match stringsSplit line with
    | [] => none
    | key :: tokens =>
      match firstByte key with
      | none => none
      | some sec =>
        match model.assertion sec key with
        | none => none
        | some ast => some (model.setRule sec key (ast.Rule ++ [tokens]))

/-! ## `rule.go` -/

/-- The struct `RuleManager`.  `rm` holds the contents of the resolver that the
pointer field `rm` addresses. -/
structure RuleManager where
  rules : Model
  rm : RoleManager
  autobuildRoleLinks : Bool
  deriving DecidableEq, Repr

/-- The function `newRuleManager`. -/
def newRuleManager : RuleManager :=
  { rules := newModel, rm := newRoleManager 10, autobuildRoleLinks := true }

/-- A value of type `interface{}` passed to the variadic `params`: a string or
a slice of strings. -/
inductive Param where
  | str : String → Param
  | slice : List String → Param
  deriving DecidableEq, Repr

/-- The type assertion `param.(string)`; `none` is its panic. -/
def Param.asString : Param → Option String
  | Param.str s => some s
  | Param.slice _ => none

/-- The loop `for _, param := range params { rule = append(rule, param.(string)) }`. -/
def paramStrings : List Param → Option (List String)
  | [] => some []
  | p :: ps =>
    match p.asString with
    | none => none
    | some s =>
      match paramStrings ps with
      | none => none
      | some rest => some (s :: rest)

/-- The method `RuleManager.buildRoleLinks`: `m.rm.Clear()`, then
`m.rules.buildRoleLinks(m.rm)`. -/
def RuleManager.buildRoleLinks (m : RuleManager) : Option RuleManager :=
  match m.rules.buildRoleLinks m.rm.Clear with
  | none => none
  | some (rules, rm) => some { m with rules := rules, rm := rm }

/-- The method `RuleManager.addRule`. -/
def RuleManager.addRule (m : RuleManager) (sec ptype : String) (rule : List String) :
    Option (RuleManager × Bool) :=
  match m.rules.Add sec ptype rule with
  | none => none
  | some (rules, ruleAdded) => some ({ m with rules := rules }, ruleAdded)

/-- The method `RuleManager.addNamedGroupingRule`. -/
def RuleManager.addNamedGroupingRule (m : RuleManager) (ptype : String)
    (params : List Param) : Option (RuleManager × Bool) :=
  let added : Option (RuleManager × Bool) :=
    match params with
    | [Param.slice rule] => m.addRule "g" ptype rule
    | _ =>
      match paramStrings params with
      | none => none
      | some rule => m.addRule "g" ptype rule
  match added with
  | none => none
  | some (m₁, ruleAdded) =>
    if m₁.autobuildRoleLinks then
      match m₁.buildRoleLinks with
      | none => none
      | some m₂ => some (m₂, ruleAdded)
    else some (m₁, ruleAdded)

/-- The method `RuleManager.addGroupingRule`. -/
def RuleManager.addGroupingRule (m : RuleManager) (params : List Param) :
    Option (RuleManager × Bool) :=
  m.addNamedGroupingRule "g" params

/-- The method `RuleManager.AddRoleForUserInDomain`. -/
def RuleManager.AddRoleForUserInDomain (m : RuleManager) (user role domain : String) :
    Option (RuleManager × Bool) :=
  m.addGroupingRule [Param.str user, Param.str role, Param.str domain]

/-- The method `RuleManager.removeFilteredRule`. -/
def RuleManager.removeFilteredRule (m : RuleManager) (sec ptype : String) (fieldIndex : Int)
    (fieldValues : List String) : Option (RuleManager × Bool) :=
  match m.rules.RemoveFilteredRule sec ptype fieldIndex fieldValues with
  | none => none
  | some (rules, ruleRemoved) => some ({ m with rules := rules }, ruleRemoved)

/-- The method `RuleManager.removeFilteredNamedGroupingRule`. -/
def RuleManager.removeFilteredNamedGroupingRule (m : RuleManager) (ptype : String)
    (fieldIndex : Int) (fieldValues : List String) : Option (RuleManager × Bool) :=
  match m.removeFilteredRule "g" ptype fieldIndex fieldValues with
  | none => none
  | some (m₁, ruleRemoved) =>
    if m₁.autobuildRoleLinks then
      match m₁.buildRoleLinks with
      | none => none
      | some m₂ => some (m₂, ruleRemoved)
    else some (m₁, ruleRemoved)

/-- The method `RuleManager.removeFilteredGroupingRule`. -/
def RuleManager.removeFilteredGroupingRule (m : RuleManager) (fieldIndex : Int)
    (fieldValues : List String) : Option (RuleManager × Bool) :=
  m.removeFilteredNamedGroupingRule "g" fieldIndex fieldValues

/-- The method `RuleManager.removeFilteredNamedRule`. -/
def RuleManager.removeFilteredNamedRule (m : RuleManager) (ptype : String)
    (fieldIndex : Int) (fieldValues : List String) : Option (RuleManager × Bool) :=
  m.removeFilteredRule "p" ptype fieldIndex fieldValues

/-- The method `RuleManager.removeFilteredRules`. -/
def RuleManager.removeFilteredRules (m : RuleManager) (fieldIndex : Int)
    (fieldValues : List String) : Option (RuleManager × Bool) :=
  m.removeFilteredNamedRule "p" fieldIndex fieldValues

/-- The method `RuleManager.DeleteUser`. -/
def RuleManager.DeleteUser (m : RuleManager) (user : String) : Option (RuleManager × Bool) :=
  m.removeFilteredGroupingRule 0 [user]

/-- The method `RuleManager.DeleteRole`. -/
def RuleManager.DeleteRole (m : RuleManager) (role : String) : Option RuleManager :=
  match m.removeFilteredGroupingRule 1 [role] with
  | none => none
  | some (m₁, _) =>
    match m₁.removeFilteredRules 0 [role] with
    | none => none
    | some (m₂, _) => some m₂

/-- The expression `m.rules["g"]["g"].RM`: the resolver the pointer addresses.
`none` when the assertion pointer is nil (the field read panics) or when `RM`
is nil: the resolver's queries read the graph of their receiver, which a nil
receiver does not have. -/
def RuleManager.groupingRM (m : RuleManager) : Option RoleManager :=
  match m.rules.assertion "g" "g" with
  | none => none
  | some ast =>
    match ast.RM with
    | RMPtr.nil => none
    | RMPtr.rm => some m.rm

/-- The method `RuleManager.GetRolesForUserInDomain`. -/
def RuleManager.GetRolesForUserInDomain (m : RuleManager) (name domain : String) :
    Option (List String) :=
  m.groupingRM.map (fun rm => rm.GetRoles name [domain])

/-- The method `RuleManager.GetRolesForUser`. -/
def RuleManager.GetRolesForUser (m : RuleManager) (name : String) : Option (List String) :=
  m.groupingRM.map (fun rm => rm.GetRoles name [])

/-- The method `RuleManager.GetUsersForRoleInDomain`. -/
def RuleManager.GetUsersForRoleInDomain (m : RuleManager) (name domain : String) :
    Option (List String) :=
  m.groupingRM.map (fun rm => rm.GetUsers name [domain])

/-- The method `RuleManager.GetUsersForRole`. -/
def RuleManager.GetUsersForRole (m : RuleManager) (name : String) : Option (List String) :=
  m.groupingRM.map (fun rm => rm.GetUsers name [])

/-- The loop of `HasRoleForUser` over `roles`. -/
def hasRoleLoop (role : String) : List String → Bool
  | [] => false
  | r :: rest => if r = role then true else hasRoleLoop role rest

/-- The method `RuleManager.HasRoleForUser`. -/
def RuleManager.HasRoleForUser (m : RuleManager) (name role : String) : Option Bool :=
  (m.GetRolesForUser name).map (hasRoleLoop role)

/-- The method `RuleManager.getAllNamedRoles`. -/
def RuleManager.getAllNamedRoles (m : RuleManager) (ptype : String) : Option (List String) :=
  m.rules.GetValuesForFieldInRule "g" ptype 1

/-- The method `RuleManager.GetAllRoles`. -/
def RuleManager.GetAllRoles (m : RuleManager) : Option (List String) :=
  m.getAllNamedRoles "g"

/-! ## The filter predicate, in the words of the specification -/

/-- The filter predicate of `GetFilteredRule`, as the specification words it:
"a tuple matches iff for every `i` in `0..len(fieldValues)`, either
`fieldValues[i]` is empty (wildcard) or `tuple[fieldIndex+i] == fieldValues[i]`".
A position outside the tuple holds no field, so it equals no value. -/
def specMatches (tuple : List String) (fieldIndex : Int) (fieldValues : List String) : Prop :=
  ∀ i : Nat, i < fieldValues.length →
    fieldValues.getD i "" = "" ∨
      goIndex tuple (fieldIndex + i) = some (fieldValues.getD i "")

instance specMatches.decidable (tuple : List String) (fieldIndex : Int)
    (fieldValues : List String) : Decidable (specMatches tuple fieldIndex fieldValues) := by
  unfold specMatches
  infer_instance

/-- The scan of `fieldValues` reads outside `tuple`: some non-empty value
stands at a position the tuple does not have (past its end, or before its
start), and every value before it is a wildcard or equals the tuple's field. -/
def readsOutside (tuple : List String) (fieldIndex : Int) (fieldValues : List String) : Prop :=
  ∃ k : Nat, k < fieldValues.length ∧ (fieldValues.getD k "" ≠ "" ∧
    goIndex tuple (fieldIndex + k) = none ∧
    ∀ j : Nat, j < k →
      fieldValues.getD j "" = "" ∨
        goIndex tuple (fieldIndex + j) = some (fieldValues.getD j ""))

instance readsOutside.decidable (tuple : List String) (fieldIndex : Int)
    (fieldValues : List String) : Decidable (readsOutside tuple fieldIndex fieldValues) := by
  unfold readsOutside
  infer_instance

/-! ## Concrete states -/

/-- The `p` rules `alice, data, read`, `bob, data, read`, `alice, log, write`
in `newModel`. -/
def threePolicies : Model :=
  newModel.setRule "p" "p"
    [["alice", "data", "read"], ["bob", "data", "read"], ["alice", "log", "write"]]

/-! ## The resolver that a rule list describes -/

/-- The resolver reached from `rm` by `AddLink(t[0], t[1], t[2])` for each
tuple `t` of `rules`, in rule order. -/
def replayLinks (rules : List (List String)) (rm : RoleManager) : RoleManager :=
  rules.foldl (fun rm t => rm.AddLink (t.getD 0 "") (t.getD 1 "") [t.getD 2 ""]) rm

/-- The manager whose `g` assertion was `ast` after a grouping mutation that
left the rule list `rule`: with `autobuildRoleLinks` the resolver is the one
`rule` describes and the assertion points to it, without it only the rule
list changes. -/
def RuleManager.regrouped (m : RuleManager) (ast : Assertion) (rule : List (List String)) :
    RuleManager :=
  if m.autobuildRoleLinks then
    { rules := mapSet "g" [("g", { ast with Rule := rule, RM := RMPtr.rm })] m.rules,
      rm := replayLinks rule m.rm.Clear,
      autobuildRoleLinks := true }
  else
    { m with rules := mapSet "g" [("g", { ast with Rule := rule })] m.rules }

/-- The manager of `newRuleManager` with the `g` rule list `g` and the `p`
rule list `p`. -/
def managerWith (g p : List (List String)) : RuleManager :=
  { newRuleManager with rules := (newModel.setRule "g" "g" g).setRule "p" "p" p }

/-- The manager of `newRuleManager` after the lines `lines` were loaded into
its model by `loadRuleLineToModel`, one after the other. -/
def managerLoaded (lines : List String) : Option RuleManager :=
  (lines.foldlM (fun model line => loadRuleLineToModel line model) newModel).map
    (fun rules => { newRuleManager with rules := rules })

/-! ## Reachable models -/

/-- The line `line` would make `loadRuleLineToModel` append a tuple that the
rule list it is appended to already holds. -/
def loadsDuplicate (line : String) (model : Model) : Bool :=
  match stringsSplit line with
  | [] => false
  | key :: tokens =>
    match firstByte key with
    | none => false
    | some sec => model.HasRule sec key tokens == some true

/-- The models reached from `newModel()` by calls of `Add`, `Remove`,
`RemoveFilteredRule` and `Clear` that return, and by calls of
`loadRuleLineToModel` that return and do not load a tuple a second time. -/
inductive Reachable : Model → Prop where
  | init : Reachable newModel
  | add {m m' : Model} {sec ptype : String} {rule : List String} {b : Bool} :
      Reachable m → m.Add sec ptype rule = some (m', b) → Reachable m'
  | remove {m m' : Model} {sec ptype : String} {rule : List String} {b : Bool} :
      Reachable m → m.Remove sec ptype rule = some (m', b) → Reachable m'
  | removeFiltered {m m' : Model} {sec ptype : String} {fieldIndex : Int}
      {fieldValues : List String} {b : Bool} :
      Reachable m → m.RemoveFilteredRule sec ptype fieldIndex fieldValues = some (m', b) →
      Reachable m'
  | clear {m : Model} : Reachable m → Reachable m.Clear
  | load {m m' : Model} {line : String} :
      Reachable m → loadRuleLineToModel line m = some m' → loadsDuplicate line m = false →
      Reachable m'

/-- Invariant I1 on every assertion stored in the model: no rule list holds
two equal tuples. -/
def AllNodup (model : Model) : Prop :=
  ∀ e ∈ model, ∀ e' ∈ e.2, e'.2.Rule.Nodup

/-! ## Reachable managers -/

/-- The managers reached from `newRuleManager()` by `AddRoleForUserInDomain`
calls that return. -/
inductive AddReachable : RuleManager → Prop where
  | init : AddReachable newRuleManager
  | step {m m' : RuleManager} {user role domain : String} {b : Bool} :
      AddReachable m → m.AddRoleForUserInDomain user role domain = some (m', b) →
      AddReachable m'

/-- The shape of a manager that `newRuleManager` and the grants keep: section
`g` holds the one assertion `g` with three placeholders, every `g` tuple has
three fields, the rebuild is automatic and the depth bound is positive. -/
def GrantShape (m : RuleManager) : Prop :=
  ∃ ast : Assertion, mapGet "g" m.rules = some [("g", ast)] ∧ stringsCount ast.Value = 3 ∧
    (∀ t ∈ ast.Rule, 3 ≤ t.length) ∧ m.autobuildRoleLinks = true ∧ 1 ≤ m.rm.maxHierarchyDepth

/-- The resolver of `m` mirrors its grouping rules: section `g` holds the one
assertion `g`, and the resolver is the one reached from an empty resolver of
depth bound `depth` by `AddLink(t[0], t[1], t[2])` for each tuple `t` of its
rule list, in rule order. -/
def Mirrors (depth : Nat) (m : RuleManager) : Prop :=
  ∃ ast : Assertion, mapGet "g" m.rules = some [("g", ast)] ∧
    m.rm = replayLinks ast.Rule (newRoleManager depth)

/-- The manager `newRuleManager()` would return with the depth bound
`maxHierarchyDepth` passed to `newRoleManager` in place of `10`. -/
def newRuleManagerWithDepth (maxHierarchyDepth : Nat) : RuleManager :=
  { newRuleManager with rm := newRoleManager maxHierarchyDepth }

/-- The manager `m` after the lines `lines` were loaded into its model by
`loadRuleLineToModel`, one after the other, with no rebuild. -/
def RuleManager.loaded (m : RuleManager) (lines : List String) : Option RuleManager :=
  (lines.foldlM (fun model line => loadRuleLineToModel line model) m.rules).map
    (fun rules => { m with rules := rules })

/-- A call `m.GetRolesForUser(args...)` as the source writes it.  The method
is declared with the one parameter `name`; a call with another number of
arguments is no call of it (the Go compiler rejects it), which is `none`. -/
def RuleManager.callGetRolesForUser (m : RuleManager) (args : List String) :
    Option (List String) :=
  match args with
  | [name] => m.GetRolesForUser name
  | _ => none

/-- The method `RuleManager.HasRoleForUserInDomain`: its first statement is
`roles := m.GetRolesForUser(name, domain)`, then the loop of `HasRoleForUser`. -/
def RuleManager.HasRoleForUserInDomain (m : RuleManager) (name domain role : String) :
    Option Bool :=
  (m.callGetRolesForUser [name, domain]).map (hasRoleLoop role)

/-! ## `manager_rbac.go` -/

/-- The operations of `memory.MemoryManager` (package `github.com/ory/ladon`,
outside the repository) on its state `σ`; a result of type `Err` is Go's
`error`, nil included. -/
structure MemoryManager (σ Policy Policies Request Err : Type) where
  Update : Policy → σ → Err × σ
  GetAll : Int → Int → σ → (Policies × Err) × σ
  Create : Policy → σ → Err × σ
  Get : String → σ → (Policy × Err) × σ
  Delete : String → σ → Err × σ
  FindRequestCandidates : Request → σ → (Policies × Err) × σ

/-- The struct `RbacManager`: the state of the memory manager it wraps. -/
structure RbacManager (σ : Type) where
  memory : σ

/-- The method `RbacManager.Update`: `return m.memory.Update(policy)`. -/
def RbacManager.Update {σ Policy Policies Request Err : Type}
    (lib : MemoryManager σ Policy Policies Request Err) (m : RbacManager σ) (policy : Policy) :
    Option (Err × RbacManager σ) :=
  some ((lib.Update policy m.memory).1, { memory := (lib.Update policy m.memory).2 })

/-- The method `RbacManager.GetAll`: `return m.memory.GetAll(limit, offset)`. -/
def RbacManager.GetAll {σ Policy Policies Request Err : Type}
    (lib : MemoryManager σ Policy Policies Request Err) (m : RbacManager σ)
    (limit offset : Int) : Option ((Policies × Err) × RbacManager σ) :=
  some ((lib.GetAll limit offset m.memory).1, { memory := (lib.GetAll limit offset m.memory).2 })

/-- The method `RbacManager.Create`: `return m.memory.Create(policy)`. -/
def RbacManager.Create {σ Policy Policies Request Err : Type}
    (lib : MemoryManager σ Policy Policies Request Err) (m : RbacManager σ) (policy : Policy) :
    Option (Err × RbacManager σ) :=
  some ((lib.Create policy m.memory).1, { memory := (lib.Create policy m.memory).2 })

/-- The method `RbacManager.Get`: `return m.memory.Get(id)`. -/
def RbacManager.Get {σ Policy Policies Request Err : Type}
    (lib : MemoryManager σ Policy Policies Request Err) (m : RbacManager σ) (id : String) :
    Option ((Policy × Err) × RbacManager σ) :=
  some ((lib.Get id m.memory).1, { memory := (lib.Get id m.memory).2 })

/-- The method `RbacManager.Delete`: `return m.Delete(id)`, a call of the
method itself.  `fuel` bounds the depth of the calls; `none` when it runs out. -/
def RbacManager.Delete {σ Policy Policies Request Err : Type}
    (lib : MemoryManager σ Policy Policies Request Err) :
    Nat → RbacManager σ → String → Option (Err × RbacManager σ)
  | 0, _, _ => none
  | fuel + 1, m, id => RbacManager.Delete lib fuel m id

/-- The method `RbacManager.FindRequestCandidates`:
`return m.FindRequestCandidates(r)`, a call of the method itself.  `fuel`
bounds the depth of the calls; `none` when it runs out. -/
def RbacManager.FindRequestCandidates {σ Policy Policies Request Err : Type}
    (lib : MemoryManager σ Policy Policies Request Err) :
    Nat → RbacManager σ → Request → Option ((Policies × Err) × RbacManager σ)
  | 0, _, _ => none
  | fuel + 1, m, r => RbacManager.FindRequestCandidates lib fuel m r

/-- A memory manager for examples: its state is the list of policy ids, an
error is a string, empty for nil. -/
def listMemory : MemoryManager (List String) String (List String) String String where
  Update := fun policy s => (if policy ∈ s then "" else "not found", s)
  GetAll := fun _ _ s => ((s, ""), s)
  Create := fun policy s =>
    (if policy ∈ s then "exists" else "", if policy ∈ s then s else s ++ [policy])
  Get := fun id s => ((id, if id ∈ s then "" else "not found"), s)
  Delete := fun id s => ("", s.filter (fun p => p != id))
  FindRequestCandidates := fun _ s => ((s, ""), s)

/-! ## Sequences of calls -/

/-- One call of the public methods of `RuleManager` that the no-panic
property is about, with its arguments. -/
inductive Call where
  | AddRoleForUserInDomain (user role domain : String)
  | DeleteUser (user : String)
  | DeleteRole (role : String)
  | GetAllRoles
  deriving DecidableEq, Repr

/-- The manager after one call; `none` when the call panics. `GetAllRoles`
leaves the manager as it is. -/
def RuleManager.call (m : RuleManager) : Call → Option RuleManager
  | Call.AddRoleForUserInDomain user role domain =>
    (m.AddRoleForUserInDomain user role domain).map Prod.fst
  | Call.DeleteUser user => (m.DeleteUser user).map Prod.fst
  | Call.DeleteRole role => m.DeleteRole role
  | Call.GetAllRoles => m.GetAllRoles.map (fun _ => m)

/-- The manager after a sequence of calls, first call first; `none` when one
of them panics. -/
def RuleManager.callAll (m : RuleManager) : List Call → Option RuleManager
  | [] => some m
  | c :: cs =>
    match m.call c with
    | none => none
    | some m' => m'.callAll cs

/-- The shape the four calls keep: section `g` holds the one assertion `g`
with three placeholders, every `g` tuple has exactly three fields, the rebuild
is automatic, and the assertion `p` is defined with tuples of at least one
field. -/
def CallShape (m : RuleManager) : Prop :=
  ∃ gast past : Assertion, mapGet "g" m.rules = some [("g", gast)] ∧
    stringsCount gast.Value = 3 ∧ (∀ t ∈ gast.Rule, t.length = 3) ∧
    m.autobuildRoleLinks = true ∧ m.rules.assertion "p" "p" = some past ∧
    (∀ t ∈ past.Rule, 1 ≤ t.length)

/-! ## `adapter.go` -/

/-- The struct `Rule`: one stored line, the policy type and six value
columns. -/
structure Rule where
  PType : String
  V0 : String
  V1 : String
  V2 : String
  V3 : String
  V4 : String
  V5 : String
  deriving DecidableEq, Repr

/-- The function `saveRuleLine`: a column past the end of `rule` keeps the
zero value, the empty string. -/
def saveRuleLine (ptype : String) (rule : List String) : Rule :=
  { PType := ptype,
    V0 := if rule.length > 0 then rule.getD 0 "" else "",
    V1 := if rule.length > 1 then rule.getD 1 "" else "",
    V2 := if rule.length > 2 then rule.getD 2 "" else "",
    V3 := if rule.length > 3 then rule.getD 3 "" else "",
    V4 := if rule.length > 4 then rule.getD 4 "" else "",
    V5 := if rule.length > 5 then rule.getD 5 "" else "" }

/-- One step of `loadRuleLine`: `if v != "" { lineText += ", " + v }`. -/
def appendColumn (lineText v : String) : String :=
  if v ≠ "" then lineText ++ (", " ++ v) else lineText

/-- The text `loadRuleLine` builds from a stored line. -/
def lineTextOf (line : Rule) : String :=
  appendColumn (appendColumn (appendColumn (appendColumn (appendColumn
    (appendColumn line.PType line.V0) line.V1) line.V2) line.V3) line.V4) line.V5

/-- The function `loadRuleLine`. -/
def loadRuleLine (line : Rule) (model : Model) : Option Model :=
  loadRuleLineToModel (lineTextOf line) model

/-- Go `strings.Contains(s, ", ")` on the characters of `s`. -/
def hasSeparator : List Char → Bool
  | [] => false
  | [_] => false
  | c₁ :: c₂ :: rest => (decide (c₁ = ',' ∧ c₂ = ' ')) || hasSeparator (c₂ :: rest)

/-- Go `strings.Contains(s, ", ")`. -/
def stringsContains (s : String) : Bool :=
  hasSeparator s.data

/-! # Properties -/

/-! ## Association lists -/

theorem mapGet_mapSet_same {β : Type} (k : String) (v : β) (l : List (String × β)) :
    mapGet k (mapSet k v l) = some v := by
  induction l with
  | nil => simp [mapSet, mapGet]
  | cons e rest ih =>
    obtain ⟨k', v'⟩ := e
    by_cases h : k' = k
    · simp [mapSet, mapGet, h]
    · simp [mapSet, mapGet, h, ih]

theorem mapGet_mapSet_other {β : Type} (k k₀ : String) (v : β) (l : List (String × β))
    (hk : k ≠ k₀) : mapGet k (mapSet k₀ v l) = mapGet k l := by
  induction l with
  | nil =>
    have hk' : ¬ k₀ = k := fun h => hk h.symm
    simp [mapSet, mapGet, hk']
  | cons e rest ih =>
    obtain ⟨k', v'⟩ := e
    by_cases h : k' = k₀
    · have hk' : ¬ k₀ = k := fun h => hk h.symm
      have hk'' : ¬ k' = k := fun h' => hk (h'.symm.trans h)
      simp [mapSet, mapGet, h, hk', hk'']
    · by_cases h' : k' = k
      · subst h'
        simp [mapSet, mapGet, h]
      · simp [mapSet, mapGet, h, h', ih]

theorem mapSet_mapSet {β : Type} (k : String) (v w : β) (l : List (String × β)) :
    mapSet k v (mapSet k w l) = mapSet k v l := by
  induction l with
  | nil => simp [mapSet]
  | cons e rest ih =>
    obtain ⟨k', v'⟩ := e
    by_cases h : k' = k
    · simp [mapSet, h]
    · simp [mapSet, h, ih]

theorem mem_mapSet {β : Type} (k : String) (v : β) (l : List (String × β)) (e : String × β)
    (he : e ∈ mapSet k v l) : e ∈ l ∨ e = (k, v) := by
  induction l with
  | nil => simpa [mapSet] using he
  | cons e' rest ih =>
    obtain ⟨k', v'⟩ := e'
    by_cases h : k' = k
    · simp [mapSet, h] at he
      rcases he with he | he
      · exact Or.inr he
      · exact Or.inl (List.mem_cons_of_mem _ he)
    · simp [mapSet, h] at he
      rcases he with he | he
      · exact Or.inl (by simp [he])
      · rcases ih he with h1 | h1
        · exact Or.inl (List.mem_cons_of_mem _ h1)
        · exact Or.inr h1

theorem mem_of_mapGet {β : Type} (k : String) (v : β) (l : List (String × β))
    (h : mapGet k l = some v) : (k, v) ∈ l := by
  induction l with
  | nil => simp [mapGet] at h
  | cons e rest ih =>
    obtain ⟨k', v'⟩ := e
    by_cases hk : k' = k
    · simp [mapGet, hk] at h
      simp [hk, h]
    · simp [mapGet, hk] at h
      exact List.mem_cons_of_mem _ (ih h)

/-! ## Tuple equality and membership -/

theorem ArrayEquals_iff (a b : List String) : ArrayEquals a b = true ↔ a = b := by
  induction a generalizing b with
  | nil => cases b <;> simp [ArrayEquals]
  | cons x xs ih =>
    cases b with
    | nil => simp [ArrayEquals]
    | cons y ys =>
      have := ih ys
      simp only [ArrayEquals, Bool.and_eq_true, beq_iff_eq] at this
      simp only [ArrayEquals, List.length_cons, List.zip_cons_cons, List.all_cons,
        Bool.and_eq_true, beq_iff_eq, Nat.add_right_cancel_iff, List.cons.injEq]
      constructor
      · rintro ⟨hl, hx, hall⟩
        exact ⟨hx, this.mp ⟨hl, hall⟩⟩
      · rintro ⟨hx, hxs⟩
        have := this.mpr hxs
        exact ⟨this.1, hx, this.2⟩

theorem hasRuleLoop_eq (rule : List String) (rules : List (List String)) :
    hasRuleLoop rule rules = decide (rule ∈ rules) := by
  induction rules with
  | nil => simp [hasRuleLoop]
  | cons r rest ih =>
    by_cases h : rule = r
    · have : ArrayEquals rule r = true := (ArrayEquals_iff _ _).mpr h
      subst h
      simp [hasRuleLoop, this]
    · have : ArrayEquals rule r = false := by
        cases hb : ArrayEquals rule r
        · rfl
        · exact absurd ((ArrayEquals_iff _ _).mp hb) h
      simp [hasRuleLoop, this, h, ih]

/-! ## Reading and writing one assertion -/

theorem assertion_setRule_same (model : Model) (sec key : String) (ast : Assertion)
    (rule : List (List String)) (h : model.assertion sec key = some ast) :
    (model.setRule sec key rule).assertion sec key = some { ast with Rule := rule } := by
  unfold Model.assertion at h
  cases hs : mapGet sec model with
  | none => simp [hs] at h
  | some am =>
    simp only [hs] at h
    simp [Model.setRule, Model.assertion, hs, h, mapGet_mapSet_same]

theorem GetRule_setRule_same (model : Model) (sec key : String) (ast : Assertion)
    (rule : List (List String)) (h : model.assertion sec key = some ast) :
    (model.setRule sec key rule).GetRule sec key = some rule := by
  simp [Model.GetRule, assertion_setRule_same model sec key ast rule h]

theorem mapGet_setRule_other (model : Model) (sec key sec' : String)
    (rule : List (List String)) (hne : sec' ≠ sec) :
    mapGet sec' (model.setRule sec key rule) = mapGet sec' model := by
  unfold Model.setRule
  cases hs : mapGet sec model with
  | none => rfl
  | some am =>
    cases hk : mapGet key am with
    | none => simp [hk]
    | some ast => simp [hk, mapGet_mapSet_other _ _ _ _ hne]

/-! ## Insertion -/

theorem HasRule_eq (model : Model) (sec ptype : String) (ast : Assertion) (rule : List String)
    (h : model.assertion sec ptype = some ast) :
    model.HasRule sec ptype rule = some (decide (rule ∈ ast.Rule)) := by
  simp [Model.HasRule, h, hasRuleLoop_eq]

theorem Add_eq (model : Model) (sec ptype : String) (ast : Assertion) (rule : List String)
    (h : model.assertion sec ptype = some ast) :
    model.Add sec ptype rule =
      if rule ∈ ast.Rule then some (model, false)
      else some (model.setRule sec ptype (ast.Rule ++ [rule]), true) := by
  unfold Model.Add
  rw [HasRule_eq model sec ptype ast rule h]
  by_cases hm : rule ∈ ast.Rule
  · simp [hm]
  · simp [hm, h]

/-- C3. Idempotent insertion: on a defined `(section, ptype)`, `Add` returns
true exactly when the tuple was not yet in the rule list; the rule list is then
the old one with the tuple appended (and is unchanged otherwise); a second
`Add` of the same tuple returns false and leaves the whole model as the first
call left it. -/
theorem Add_idempotent (model : Model) (sec ptype : String) (ast : Assertion)
    (T : List String) (h : model.assertion sec ptype = some ast) :
    ∃ m₁ : Model,
      model.Add sec ptype T = some (m₁, decide (T ∉ ast.Rule)) ∧
      m₁.GetRule sec ptype = some (if T ∈ ast.Rule then ast.Rule else ast.Rule ++ [T]) ∧
      m₁.Add sec ptype T = some (m₁, false) := by
  by_cases hm : T ∈ ast.Rule
  · refine ⟨model, ?_, ?_, ?_⟩
    · simp [Add_eq model sec ptype ast T h, hm]
    · simp [Model.GetRule, h, hm]
    · simp [Add_eq model sec ptype ast T h, hm]
  · refine ⟨model.setRule sec ptype (ast.Rule ++ [T]), ?_, ?_, ?_⟩
    · simp [Add_eq model sec ptype ast T h, hm]
    · simp [GetRule_setRule_same model sec ptype ast _ h, hm]
    · have h₁ := assertion_setRule_same model sec ptype ast (ast.Rule ++ [T]) h
      rw [Add_eq _ sec ptype _ T h₁]
      simp

/-- C3, at a concrete input: the tuple `alice, data, read` added twice to the
empty `p` rule list of `newModel`. -/
theorem Add_idempotent_witness :
    ∃ m₁ : Model,
      newModel.Add "p" "p" ["alice", "data", "read"] = some (m₁, true) ∧
      m₁.GetRule "p" "p" = some [["alice", "data", "read"]] ∧
      m₁.Add "p" "p" ["alice", "data", "read"] = some (m₁, false) := by
  simpa using Add_idempotent newModel "p" "p"
    { Key := "p", Value := "sub, dom, obj, act",
      Tokens := ["p_sub", "p_dom", "p_obj", "p_act"], Rule := [], RM := RMPtr.nil }
    ["alice", "data", "read"] (by decide)

/-! ## The scan of one tuple -/

theorem forall_lt_succ_first (n : Nat) (P : Nat → Prop) :
    (∀ j, j < n + 1 → P j) ↔ P 0 ∧ ∀ j, j < n → P (j + 1) := by
  constructor
  · intro h
    exact ⟨h 0 (Nat.succ_pos n), fun j hj => h (j + 1) (Nat.succ_lt_succ hj)⟩
  · rintro ⟨h0, hs⟩ j hj
    cases j with
    | zero => exact h0
    | succ j => exact hs j (Nat.lt_of_succ_lt_succ hj)

theorem exists_lt_succ_first (n : Nat) (P : Nat → Prop) :
    (∃ k, k < n + 1 ∧ P k) ↔ P 0 ∨ ∃ k, k < n ∧ P (k + 1) := by
  constructor
  · rintro ⟨k, hk, hp⟩
    cases k with
    | zero => exact Or.inl hp
    | succ k => exact Or.inr ⟨k, Nat.lt_of_succ_lt_succ hk, hp⟩
  · rintro (h0 | ⟨k, hk, hp⟩)
    · exact ⟨0, Nat.succ_pos n, h0⟩
    · exact ⟨k + 1, Nat.succ_lt_succ hk, hp⟩

theorem goIndex_eq_none_iff (t : List String) (i : Int) :
    goIndex t i = none ↔ i < 0 ∨ (t.length : Int) ≤ i := by
  unfold goIndex
  by_cases h : i < 0
  · simp [h]
  · simp only [h, if_false, false_or, List.get?_eq_none]
    omega

theorem goIndex_natCast (t : List String) (n : Nat) : goIndex t (n : Int) = t.get? n := by
  simp [goIndex]

theorem goIndex_zero (t : List String) : goIndex t 0 = t.get? 0 :=
  goIndex_natCast t 0

theorem goIndex_one (t : List String) : goIndex t 1 = t.get? 1 :=
  goIndex_natCast t 1

theorem matchLoop_cons (t : List String) (fi : Int) (i : Nat) (v : String)
    (rest : List String) :
    matchLoop t fi i (v :: rest) =
      if v ≠ "" then
        match goIndex t (fi + i) with
        | none => none
        | some field => if field ≠ v then some false else matchLoop t fi (i + 1) rest
      else matchLoop t fi (i + 1) rest := by
  rw [matchLoop]

theorem matchLoop_true_iff (t : List String) (fi : Int) (fvs : List String) (i : Nat) :
    matchLoop t fi i fvs = some true ↔
      ∀ j : Nat, j < fvs.length →
        fvs.getD j "" = "" ∨ goIndex t (fi + ((i + j : Nat) : Int)) = some (fvs.getD j "") := by
  induction fvs generalizing i with
  | nil => simp [matchLoop]
  | cons v rest ih =>
    rw [List.length_cons, forall_lt_succ_first]
    have ih' := ih (i + 1)
    simp only [List.getD_cons_zero, List.getD_cons_succ, Nat.add_zero]
    have hidx : ∀ j : Nat, fi + ((i + (j + 1) : Nat) : Int) = fi + ((i + 1 + j : Nat) : Int) :=
      fun j => by rw [show i + (j + 1) = i + 1 + j by omega]
    simp only [hidx]
    rw [← ih', matchLoop_cons]
    by_cases hv : v = ""
    · simp [hv]
    · cases hg : goIndex t (fi + (i : Int)) with
      | none => simp [hv]
      | some x =>
        by_cases hx : x = v
        · simp [hv, hx]
        · simp [hv, hx]

theorem matchLoop_none_iff (t : List String) (fi : Int) (fvs : List String) (i : Nat) :
    matchLoop t fi i fvs = none ↔
      ∃ k : Nat, k < fvs.length ∧ (fvs.getD k "" ≠ "" ∧
        goIndex t (fi + ((i + k : Nat) : Int)) = none ∧
        ∀ j : Nat, j < k →
          fvs.getD j "" = "" ∨
            goIndex t (fi + ((i + j : Nat) : Int)) = some (fvs.getD j "")) := by
  induction fvs generalizing i with
  | nil => simp [matchLoop]
  | cons v rest ih =>
    rw [List.length_cons, exists_lt_succ_first]
    have ih' := ih (i + 1)
    have hidx : ∀ j : Nat, fi + ((i + (j + 1) : Nat) : Int) = fi + ((i + 1 + j : Nat) : Int) :=
      fun j => by rw [show i + (j + 1) = i + 1 + j by omega]
    simp only [List.getD_cons_zero, List.getD_cons_succ, Nat.add_zero, forall_lt_succ_first,
      hidx, Nat.not_lt_zero, false_imp_iff, implies_true, and_true]
    rw [matchLoop_cons]
    by_cases hv : v = ""
    · simp only [hv, ne_eq, not_true_eq_false, if_false, false_and, false_or, true_or, true_and]
      rw [ih']
    · cases hg : goIndex t (fi + (i : Int)) with
      | none => simp [hv]
      | some x =>
        by_cases hx : x = v
        · simp only [hv, hx, ne_eq, not_false_eq_true, if_true, not_true_eq_false, if_false,
            false_and, and_false, false_or, or_true, true_and]
          rw [ih']
          simp
        · have hx' : ¬ some x = some v := fun h => hx (Option.some.inj h)
          simp [hv, hx, hx']

theorem matchLoop_true_iff_specMatches (t : List String) (fi : Int) (fvs : List String) :
    matchLoop t fi 0 fvs = some true ↔ specMatches t fi fvs := by
  simpa [specMatches] using matchLoop_true_iff t fi fvs 0

theorem matchLoop_none_iff_readsOutside (t : List String) (fi : Int) (fvs : List String) :
    matchLoop t fi 0 fvs = none ↔ readsOutside t fi fvs := by
  simpa [readsOutside] using matchLoop_none_iff t fi fvs 0

theorem matchLoop_eq_of_safe (t : List String) (fi : Int) (fvs : List String)
    (h : ¬ readsOutside t fi fvs) :
    matchLoop t fi 0 fvs = some (decide (specMatches t fi fvs)) := by
  cases hm : matchLoop t fi 0 fvs with
  | none => exact absurd ((matchLoop_none_iff_readsOutside t fi fvs).mp hm) h
  | some b =>
    cases b with
    | true => simp [(matchLoop_true_iff_specMatches t fi fvs).mp hm]
    | false =>
      have : ¬ specMatches t fi fvs := by
        intro hs
        rw [(matchLoop_true_iff_specMatches t fi fvs).mpr hs] at hm
        exact Bool.noConfusion (Option.some.inj hm)
      simp [this]

theorem not_readsOutside_of_length (t : List String) (fi : Int) (fvs : List String)
    (hpos : ∀ i : Nat, i < fvs.length → fvs.getD i "" ≠ "" → 0 ≤ fi + i)
    (h : fi + fvs.length ≤ t.length) : ¬ readsOutside t fi fvs := by
  rintro ⟨k, hk, hv, hnone, _⟩
  have h0 := hpos k hk hv
  rcases (goIndex_eq_none_iff t (fi + k)).mp hnone with hlt | hge
  · omega
  · omega

/-! ## Filtered query and removal -/

theorem removeFilteredLoop_eq (fi : Int) (fvs : List String) (rules tmp : List (List String))
    (res : Bool) (h : ∀ r ∈ rules, ¬ readsOutside r fi fvs) :
    removeFilteredLoop fi fvs rules tmp res =
      some (tmp ++ rules.filter (fun r => decide (¬ specMatches r fi fvs)),
        res || decide (∃ r ∈ rules, specMatches r fi fvs)) := by
  induction rules generalizing tmp res with
  | nil => simp [removeFilteredLoop]
  | cons r rest ih =>
    have hr := matchLoop_eq_of_safe r fi fvs (h r (List.mem_cons_self _ _))
    have hrest : ∀ r' ∈ rest, ¬ readsOutside r' fi fvs :=
      fun r' hr' => h r' (List.mem_cons_of_mem _ hr')
    rw [removeFilteredLoop, hr]
    by_cases hs : specMatches r fi fvs
    · simp [hs, ih _ _ hrest]
    · simp [hs, ih _ _ hrest]

theorem getFilteredLoop_eq (fi : Int) (fvs : List String) (rules res : List (List String))
    (h : ∀ r ∈ rules, ¬ readsOutside r fi fvs) :
    getFilteredLoop fi fvs rules res =
      some (res ++ rules.filter (fun r => decide (specMatches r fi fvs))) := by
  induction rules generalizing res with
  | nil => simp [getFilteredLoop]
  | cons r rest ih =>
    have hr := matchLoop_eq_of_safe r fi fvs (h r (List.mem_cons_self _ _))
    have hrest : ∀ r' ∈ rest, ¬ readsOutside r' fi fvs :=
      fun r' hr' => h r' (List.mem_cons_of_mem _ hr')
    rw [getFilteredLoop, hr]
    by_cases hs : specMatches r fi fvs
    · simp [hs, ih _ hrest]
    · simp [hs, ih _ hrest]

theorem RemoveFilteredRule_eq (model : Model) (sec ptype : String) (fi : Int)
    (fvs : List String) (ast : Assertion) (h : model.assertion sec ptype = some ast)
    (hsafe : ∀ r ∈ ast.Rule, ¬ readsOutside r fi fvs) :
    model.RemoveFilteredRule sec ptype fi fvs =
      some (model.setRule sec ptype (ast.Rule.filter (fun r => decide (¬ specMatches r fi fvs))),
        decide (∃ r ∈ ast.Rule, specMatches r fi fvs)) := by
  simp [Model.RemoveFilteredRule, h, removeFilteredLoop_eq fi fvs ast.Rule [] false hsafe]

theorem GetFilteredRule_eq (model : Model) (sec ptype : String) (fi : Int)
    (fvs : List String) (ast : Assertion) (h : model.assertion sec ptype = some ast)
    (hsafe : ∀ r ∈ ast.Rule, ¬ readsOutside r fi fvs) :
    model.GetFilteredRule sec ptype fi fvs =
      some (ast.Rule.filter (fun r => decide (specMatches r fi fvs))) := by
  simp [Model.GetFilteredRule, h, getFilteredLoop_eq fi fvs ast.Rule [] hsafe]

/-- C4, refuted as stated. The `p` rule list holds the one-field tuple `a`;
with `fieldIndex = -1` and the one value `x` every tuple has at least
`fieldIndex + len(fieldValues) = 0` fields, yet `RemoveFilteredRule` reads
`rule[-1]` and fails. -/
theorem RemoveFilteredRule_counterexample :
    ∃ (m : Model) (ast : Assertion),
      newModel.Add "p" "p" ["a"] = some (m, true) ∧
      m.assertion "p" "p" = some ast ∧
      (∀ t ∈ ast.Rule, (-1 : Int) + (["x"].length : Int) ≤ (t.length : Int)) ∧
      m.RemoveFilteredRule "p" "p" (-1) ["x"] = none :=
  ⟨_, _, rfl, rfl, by decide, by decide⟩

/-- C4, amended. Filtered removal correctness: when every tuple of the rule
list has at least `fieldIndex + len(fieldValues)` fields and no non-empty
`fieldValues[i]` stands at a negative position `fieldIndex + i` (as is the case
whenever `fieldIndex` is not negative), `RemoveFilteredRule` returns, the new
rule list is the old one without the tuples that match the filter predicate,
the others in their original order, and the result is true exactly when some
tuple matched. -/
theorem RemoveFilteredRule_correct (model : Model) (sec ptype : String) (fieldIndex : Int)
    (fieldValues : List String) (ast : Assertion)
    (h : model.assertion sec ptype = some ast)
    (hpos : ∀ i : Nat, i < fieldValues.length → fieldValues.getD i "" ≠ "" →
      0 ≤ fieldIndex + (i : Int))
    (hlen : ∀ t ∈ ast.Rule, fieldIndex + (fieldValues.length : Int) ≤ (t.length : Int)) :
    ∃ m₁ : Model,
      model.RemoveFilteredRule sec ptype fieldIndex fieldValues =
        some (m₁, decide (∃ t ∈ ast.Rule, specMatches t fieldIndex fieldValues)) ∧
      m₁.GetRule sec ptype =
        some (ast.Rule.filter (fun t => decide (¬ specMatches t fieldIndex fieldValues))) := by
  have hsafe : ∀ r ∈ ast.Rule, ¬ readsOutside r fieldIndex fieldValues :=
    fun r hr => not_readsOutside_of_length r fieldIndex fieldValues hpos (hlen r hr)
  exact ⟨_, RemoveFilteredRule_eq model sec ptype fieldIndex fieldValues ast h hsafe,
    GetRule_setRule_same model sec ptype ast _ h⟩

/-- C4 amended, at a concrete input: removing the rules of subject `alice`,
any object, action `read` from three `p` rules. -/
theorem RemoveFilteredRule_correct_witness :
    ∃ m₁ : Model,
      threePolicies.RemoveFilteredRule "p" "p" 0 ["alice", "", "read"] = some (m₁, true) ∧
      m₁.GetRule "p" "p" = some [["bob", "data", "read"], ["alice", "log", "write"]] := by
  have h := RemoveFilteredRule_correct threePolicies "p" "p" 0 ["alice", "", "read"]
    { Key := "p", Value := "sub, dom, obj, act",
      Tokens := ["p_sub", "p_dom", "p_obj", "p_act"],
      Rule := [["alice", "data", "read"], ["bob", "data", "read"], ["alice", "log", "write"]],
      RM := RMPtr.nil }
    (by decide) (fun i _ _ => by omega) (by decide)
  obtain ⟨m₁, h₁, h₂⟩ := h
  refine ⟨m₁, ?_, ?_⟩
  · rw [h₁]
    simp only [Option.some.injEq, Prod.mk.injEq, true_and]
    decide
  · rw [h₂]
    decide

/-- C5, refuted as stated. The `p` rule list holds the one-field tuple `a`,
shorter than `fieldIndex + len(fieldValues) = 2`. With two wildcards the tuple
is matched: `GetFilteredRule` returns it and `RemoveFilteredRule` removes it.
With the values `a, b` both operations read `rule[1]` and fail. -/
theorem short_tuple_counterexample :
    ∃ m : Model,
      newModel.Add "p" "p" ["a"] = some (m, true) ∧
      m.GetFilteredRule "p" "p" 0 ["", ""] = some [["a"]] ∧
      (m.RemoveFilteredRule "p" "p" 0 ["", ""]).map (fun r => (r.1.GetRule "p" "p", r.2)) =
        some (some [], true) ∧
      m.GetFilteredRule "p" "p" 0 ["a", "b"] = none ∧
      m.RemoveFilteredRule "p" "p" 0 ["a", "b"] = none :=
  ⟨_, rfl, by decide, by decide, by decide, by decide⟩

/-- C5, amended. When the scan of no tuple of the rule list reads outside
that tuple (a non-empty value at a position past the tuple's end or before its
start), `GetFilteredRule` and `RemoveFilteredRule` both return, and a tuple of
any length, also one shorter than `fieldIndex + len(fieldValues)`, is matched
exactly when every value is a wildcard or equals the tuple's field at a
position the tuple has: it is returned by `GetFilteredRule` and dropped by
`RemoveFilteredRule` in that case, and neither otherwise. A matched tuple has
only wildcards at the positions outside it. -/
theorem short_tuple_filtered (model : Model) (sec ptype : String) (fieldIndex : Int)
    (fieldValues : List String) (ast : Assertion) (t : List String)
    (h : model.assertion sec ptype = some ast)
    (hsafe : ∀ r ∈ ast.Rule, ¬ readsOutside r fieldIndex fieldValues)
    (ht : t ∈ ast.Rule) :
    ∃ (res kept : List (List String)) (m₁ : Model) (b : Bool),
      model.GetFilteredRule sec ptype fieldIndex fieldValues = some res ∧
      model.RemoveFilteredRule sec ptype fieldIndex fieldValues = some (m₁, b) ∧
      m₁.GetRule sec ptype = some kept ∧
      (t ∈ res ↔ specMatches t fieldIndex fieldValues) ∧
      (t ∈ kept ↔ ¬ specMatches t fieldIndex fieldValues) ∧
      (specMatches t fieldIndex fieldValues →
        ∀ i : Nat, i < fieldValues.length →
          (fieldIndex + (i : Int) < 0 ∨ (t.length : Int) ≤ fieldIndex + (i : Int)) →
          fieldValues.getD i "" = "") := by
  refine ⟨_, _, _, _, GetFilteredRule_eq model sec ptype fieldIndex fieldValues ast h hsafe,
    RemoveFilteredRule_eq model sec ptype fieldIndex fieldValues ast h hsafe,
    GetRule_setRule_same model sec ptype ast _ h, ?_, ?_, ?_⟩
  · simp [List.mem_filter, ht]
  · simp [List.mem_filter, ht]
  · intro hs i hi hout
    rcases hs i hi with h0 | h1
    · exact h0
    · rw [(goIndex_eq_none_iff t (fieldIndex + (i : Int))).mpr hout] at h1
      exact Option.noConfusion h1

/-- C5 amended, at a concrete input: the one-field tuple `a` against the
values `x, b` from position 0 is not matched, and nothing fails. -/
theorem short_tuple_filtered_witness :
    ∃ (res kept : List (List String)) (m₁ : Model) (b : Bool),
      (newModel.setRule "p" "p" [["a"]]).GetFilteredRule "p" "p" 0 ["x", "b"] = some res ∧
      (newModel.setRule "p" "p" [["a"]]).RemoveFilteredRule "p" "p" 0 ["x", "b"] = some (m₁, b) ∧
      m₁.GetRule "p" "p" = some kept ∧
      (["a"] ∈ res ↔ specMatches ["a"] 0 ["x", "b"]) ∧
      (["a"] ∈ kept ↔ ¬ specMatches ["a"] 0 ["x", "b"]) ∧
      (specMatches ["a"] 0 ["x", "b"] →
        ∀ i : Nat, i < ["x", "b"].length →
          ((0 : Int) + (i : Int) < 0 ∨ ((["a"].length : Nat) : Int) ≤ (0 : Int) + (i : Int)) →
          ["x", "b"].getD i "" = "") :=
  short_tuple_filtered (newModel.setRule "p" "p" [["a"]]) "p" "p" 0 ["x", "b"]
    { Key := "p", Value := "sub, dom, obj, act",
      Tokens := ["p_sub", "p_dom", "p_obj", "p_act"], Rule := [["a"]], RM := RMPtr.nil }
    ["a"] (by decide) (by decide) (by decide)

/-- C5 amended, before the tuple's start: with `fieldIndex = -1` the wildcard
at position `-1` is skipped and the value `a` is compared with the tuple's
first field, so the tuple is matched; with a non-empty first value the scan
reads `rule[-1]` and both operations fail. -/
theorem short_tuple_negative_example :
    (newModel.setRule "p" "p" [["a"]]).GetFilteredRule "p" "p" (-1) ["", "a"] = some [["a"]] ∧
    (newModel.setRule "p" "p" [["a"]]).GetFilteredRule "p" "p" (-1) ["x", "a"] = none ∧
    (newModel.setRule "p" "p" [["a"]]).RemoveFilteredRule "p" "p" (-1) ["x", "a"] = none :=
  ⟨by decide, by decide, by decide⟩

/-! ## Rebuilding the resolver -/

theorem buildLinksLoop_three (rules : List (List String)) (rm : RoleManager)
    (h : ∀ t ∈ rules, 3 ≤ t.length) :
    buildLinksLoop 3 rules rm = some (replayLinks rules rm) := by
  induction rules generalizing rm with
  | nil => simp [buildLinksLoop, replayLinks]
  | cons t rest ih =>
    have ht := h t (List.mem_cons_self _ _)
    have hrest : ∀ t' ∈ rest, 3 ≤ t'.length := fun t' ht' => h t' (List.mem_cons_of_mem _ ht')
    match t, ht with
    | a :: b :: c :: tl, _ =>
      rw [buildLinksLoop]
      have hlen : ¬ (a :: b :: c :: tl).length < 3 := by simp
      simp only [hlen, if_false]
      simp [ih _ hrest, replayLinks]

theorem buildLinksLoop_three_short (rules : List (List String)) (rm : RoleManager)
    (h : ∃ t ∈ rules, t.length < 3) : buildLinksLoop 3 rules rm = none := by
  induction rules generalizing rm with
  | nil => simp at h
  | cons t rest ih =>
    by_cases ht : t.length < 3
    · rw [buildLinksLoop]
      simp [ht]
    · have hrest : ∃ t' ∈ rest, t'.length < 3 := by
        obtain ⟨t', ht', hl⟩ := h
        rcases List.mem_cons.mp ht' with heq | hmem
        · exact absurd (heq ▸ hl) ht
        · exact ⟨t', hmem, hl⟩
      have ht3 : 3 ≤ t.length := Nat.le_of_not_lt ht
      match t, ht3 with
      | a :: b :: c :: tl, _ =>
        rw [buildLinksLoop]
        have hlen : ¬ (a :: b :: c :: tl).length < 3 := by simp
        simp only [hlen, if_false]
        simp [ih _ hrest]

theorem assertion_grouping (model : Model) (ast : Assertion)
    (hg : mapGet "g" model = some [("g", ast)]) : model.assertion "g" "g" = some ast := by
  simp [Model.assertion, hg, mapGet]

theorem setRule_grouping (model : Model) (ast : Assertion) (rule : List (List String))
    (hg : mapGet "g" model = some [("g", ast)]) :
    model.setRule "g" "g" rule = mapSet "g" [("g", { ast with Rule := rule })] model := by
  simp [Model.setRule, hg, mapGet, mapSet]

theorem Model_buildRoleLinks_eq (model : Model) (ast : Assertion) (rm : RoleManager)
    (hg : mapGet "g" model = some [("g", ast)]) (hv : stringsCount ast.Value = 3)
    (harity : ∀ t ∈ ast.Rule, 3 ≤ t.length) :
    model.buildRoleLinks rm =
      some (mapSet "g" [("g", { ast with RM := RMPtr.rm })] model, replayLinks ast.Rule rm) := by
  simp [Model.buildRoleLinks, hg, buildSectionLinks, Assertion.buildRoleLinks, hv,
    buildLinksLoop_three ast.Rule rm harity]

theorem Model_buildRoleLinks_short (model : Model) (ast : Assertion) (rm : RoleManager)
    (hg : mapGet "g" model = some [("g", ast)]) (hv : stringsCount ast.Value = 3)
    (hshort : ∃ t ∈ ast.Rule, t.length < 3) : model.buildRoleLinks rm = none := by
  simp [Model.buildRoleLinks, hg, buildSectionLinks, Assertion.buildRoleLinks, hv,
    buildLinksLoop_three_short ast.Rule rm hshort]

/-- The manager after its `g` rule list became `rule` and the rebuild that
follows a grouping mutation ran (when `autobuildRoleLinks` is set). -/
theorem rebuild_after_setRule (m : RuleManager) (ast : Assertion) (rule : List (List String))
    (hg : mapGet "g" m.rules = some [("g", ast)]) (hv : stringsCount ast.Value = 3)
    (harity : ∀ t ∈ rule, 3 ≤ t.length) :
    ({ m with rules := m.rules.setRule "g" "g" rule } : RuleManager).buildRoleLinks =
      some { rules := mapSet "g" [("g", { ast with Rule := rule, RM := RMPtr.rm })] m.rules,
             rm := replayLinks rule m.rm.Clear,
             autobuildRoleLinks := m.autobuildRoleLinks } := by
  have hg' : mapGet "g" (m.rules.setRule "g" "g" rule) = some [("g", { ast with Rule := rule })] := by
    rw [setRule_grouping m.rules ast rule hg, mapGet_mapSet_same]
  unfold RuleManager.buildRoleLinks
  simp only
  rw [Model_buildRoleLinks_eq _ _ m.rm.Clear hg' hv harity, setRule_grouping m.rules ast rule hg,
    mapSet_mapSet]

/-! ## Grouping mutations of the manager -/

theorem regrouped_GetRule (m : RuleManager) (ast : Assertion) (rule : List (List String)) :
    (m.regrouped ast rule).rules.GetRule "g" "g" = some rule := by
  unfold RuleManager.regrouped
  by_cases ha : m.autobuildRoleLinks = true
  · simp [ha, Model.GetRule, Model.assertion, mapGet_mapSet_same, mapGet]
  · simp [ha, Model.GetRule, Model.assertion, mapGet_mapSet_same, mapGet]

theorem regrouped_mapGet_other (m : RuleManager) (ast : Assertion) (rule : List (List String))
    (sec : String) (hsec : sec ≠ "g") :
    mapGet sec (m.regrouped ast rule).rules = mapGet sec m.rules := by
  unfold RuleManager.regrouped
  by_cases ha : m.autobuildRoleLinks = true
  · simp [ha, mapGet_mapSet_other _ _ _ _ hsec]
  · simp [ha, mapGet_mapSet_other _ _ _ _ hsec]

theorem regrouped_assertion_other (m : RuleManager) (ast : Assertion)
    (rule : List (List String)) (sec key : String) (hsec : sec ≠ "g") :
    (m.regrouped ast rule).rules.assertion sec key = m.rules.assertion sec key := by
  simp [Model.assertion, regrouped_mapGet_other m ast rule sec hsec]

theorem regrouped_autobuild (m : RuleManager) (ast : Assertion) (rule : List (List String)) :
    (m.regrouped ast rule).autobuildRoleLinks = m.autobuildRoleLinks := by
  unfold RuleManager.regrouped
  by_cases ha : m.autobuildRoleLinks = true
  · simp [ha]
  · simp [ha]

theorem rebuild_step (m : RuleManager) (ast : Assertion) (rule : List (List String)) (b : Bool)
    (hg : mapGet "g" m.rules = some [("g", ast)]) (hv : stringsCount ast.Value = 3)
    (harity : ∀ t ∈ rule, 3 ≤ t.length) :
    (if ({ m with rules := m.rules.setRule "g" "g" rule } : RuleManager).autobuildRoleLinks then
        match ({ m with rules := m.rules.setRule "g" "g" rule } : RuleManager).buildRoleLinks with
        | none => none
        | some m₂ => some (m₂, b)
      else some (({ m with rules := m.rules.setRule "g" "g" rule } : RuleManager), b)) =
      some (m.regrouped ast rule, b) := by
  by_cases ha : m.autobuildRoleLinks = true
  · have hc : ({ m with rules := m.rules.setRule "g" "g" rule } : RuleManager).autobuildRoleLinks
        = true := ha
    rw [if_pos hc, rebuild_after_setRule m ast rule hg hv harity]
    simp [RuleManager.regrouped, ha]
  · simp [ha, RuleManager.regrouped, setRule_grouping m.rules ast rule hg]

theorem setRule_self (m : RuleManager) (ast : Assertion)
    (hg : mapGet "g" m.rules = some [("g", ast)]) :
    ({ m with rules := m.rules.setRule "g" "g" ast.Rule } : RuleManager) = m := by
  have h : m.rules.setRule "g" "g" ast.Rule = m.rules := by
    rw [setRule_grouping m.rules ast ast.Rule hg]
    generalize m.rules = l at hg
    induction l with
    | nil => simp [mapGet] at hg
    | cons e rest ih =>
      obtain ⟨k, v⟩ := e
      by_cases hk : k = "g"
      · simp [mapGet, hk] at hg
        simp [mapSet, hk, hg]
      · simp [mapGet, hk] at hg
        simp [mapSet, hk, ih hg]
  rw [h]

theorem removeFilteredGroupingRule_eq (m : RuleManager) (ast : Assertion) (fi : Int)
    (fvs : List String) (hg : mapGet "g" m.rules = some [("g", ast)])
    (hv : stringsCount ast.Value = 3)
    (hsafe : ∀ r ∈ ast.Rule, ¬ readsOutside r fi fvs)
    (harity : ∀ t ∈ ast.Rule, ¬ specMatches t fi fvs → 3 ≤ t.length) :
    m.removeFilteredGroupingRule fi fvs =
      some (m.regrouped ast (ast.Rule.filter (fun r => decide (¬ specMatches r fi fvs))),
        decide (∃ r ∈ ast.Rule, specMatches r fi fvs)) := by
  unfold RuleManager.removeFilteredGroupingRule RuleManager.removeFilteredNamedGroupingRule
    RuleManager.removeFilteredRule
  rw [RemoveFilteredRule_eq m.rules "g" "g" fi fvs ast (assertion_grouping m.rules ast hg) hsafe]
  simp only
  apply rebuild_step m ast _ _ hg hv
  intro t ht
  have := List.mem_filter.mp ht
  exact harity t this.1 (by simpa using this.2)

theorem AddRoleForUserInDomain_eq (m : RuleManager) (ast : Assertion) (user role domain : String)
    (hg : mapGet "g" m.rules = some [("g", ast)]) (hv : stringsCount ast.Value = 3)
    (harity : ∀ t ∈ ast.Rule, 3 ≤ t.length) :
    m.AddRoleForUserInDomain user role domain =
      if [user, role, domain] ∈ ast.Rule then some (m.regrouped ast ast.Rule, false)
      else some (m.regrouped ast (ast.Rule ++ [[user, role, domain]]), true) := by
  unfold RuleManager.AddRoleForUserInDomain RuleManager.addGroupingRule
    RuleManager.addNamedGroupingRule RuleManager.addRule
  simp only [paramStrings, Param.asString]
  rw [Add_eq m.rules "g" "g" ast _ (assertion_grouping m.rules ast hg)]
  by_cases hm : [user, role, domain] ∈ ast.Rule
  · simp only [hm, if_true]
    have := rebuild_step m ast ast.Rule false hg hv harity
    rw [setRule_self m ast hg] at this
    exact this
  · simp only [hm, if_false]
    apply rebuild_step m ast _ _ hg hv
    intro t ht
    rcases List.mem_append.mp ht with h | h
    · exact harity t h
    · simp at h
      simp [h]

theorem specMatches_single (t : List String) (fi : Int) (v : String) :
    specMatches t fi [v] ↔ v = "" ∨ goIndex t fi = some v := by
  unfold specMatches
  constructor
  · intro h
    simpa using h 0 (by simp)
  · intro h i hi
    have hi0 : i = 0 := by simpa using hi
    subst hi0
    simpa using h

theorem readsOutside_single (t : List String) (fi : Int) (v : String) :
    readsOutside t fi [v] ↔ v ≠ "" ∧ goIndex t fi = none := by
  unfold readsOutside
  constructor
  · rintro ⟨k, hk, hv, hle, _⟩
    have hk0 : k = 0 := by simpa using hk
    subst hk0
    exact ⟨by simpa using hv, by simpa using hle⟩
  · rintro ⟨hv, hle⟩
    exact ⟨0, by simp, by simpa using hv, by simpa using hle, fun j hj => absurd hj (Nat.not_lt_zero j)⟩

theorem not_readsOutside_zero (t : List String) (v : String) (h : 1 ≤ t.length) :
    ¬ readsOutside t 0 [v] := by
  intro hpast
  have := ((readsOutside_single t 0 v).mp hpast).2
  rw [goIndex_zero, List.get?_eq_none] at this
  omega

theorem not_readsOutside_one (t : List String) (v : String) (h : 2 ≤ t.length) :
    ¬ readsOutside t 1 [v] := by
  intro hpast
  have := ((readsOutside_single t 1 v).mp hpast).2
  rw [goIndex_one, List.get?_eq_none] at this
  omega

/-- C6, refuted as stated. After the grant `alice, admin, corp`,
`DeleteUser("")` removes that tuple, whose field 0 is not the empty string,
and returns true. With the one-field `g` tuple `bob` loaded, `DeleteUser("alice")`
fails in the rebuild. -/
theorem DeleteUser_counterexample :
    ((newRuleManager.AddRoleForUserInDomain "alice" "admin" "corp").bind
        (fun r => r.1.DeleteUser "")).map (fun r => (r.1.rules.GetRule "g" "g", r.2)) =
      some (some [], true) ∧
    (managerLoaded ["g, bob"]).map (fun m => (m.rules.GetRule "g" "g", m.DeleteUser "alice")) =
      some (some [["bob"]], none) := by
  constructor <;> decide

/-- C6, amended. For a non-empty `user`, when every `g` tuple has at least one
field and every `g` tuple that is kept (field 0 differs from `user`) has at
least the 3 fields the rebuild asks for, `DeleteUser(user)` returns, the `g`
rule list is the old one without the tuples whose field 0 equals `user`, the
others in their original order, and the result is true exactly when some tuple
had field 0 equal to `user`. -/
theorem DeleteUser_correct (m : RuleManager) (ast : Assertion) (user : String)
    (hg : mapGet "g" m.rules = some [("g", ast)]) (hv : stringsCount ast.Value = 3)
    (huser : user ≠ "") (h1 : ∀ t ∈ ast.Rule, 1 ≤ t.length)
    (h3 : ∀ t ∈ ast.Rule, t.get? 0 ≠ some user → 3 ≤ t.length) :
    ∃ m₁ : RuleManager,
      m.DeleteUser user = some (m₁, decide (∃ t ∈ ast.Rule, t.get? 0 = some user)) ∧
      m₁.rules.GetRule "g" "g" =
        some (ast.Rule.filter (fun t => decide (t.get? 0 ≠ some user))) := by
  have hspec : ∀ t : List String, specMatches t 0 [user] ↔ t.get? 0 = some user := by
    intro t
    rw [specMatches_single, goIndex_zero]
    simp [huser]
  have hsafe : ∀ r ∈ ast.Rule, ¬ readsOutside r 0 [user] :=
    fun r hr => not_readsOutside_zero r user (h1 r hr)
  have harity : ∀ t ∈ ast.Rule, ¬ specMatches t 0 [user] → 3 ≤ t.length :=
    fun t ht hn => h3 t ht (fun h => hn ((hspec t).mpr h))
  have heq := removeFilteredGroupingRule_eq m ast 0 [user] hg hv hsafe harity
  simp only [hspec] at heq
  exact ⟨_, heq, regrouped_GetRule m ast _⟩

/-- C6 amended, at a concrete input: `DeleteUser("alice")` on the grants
`alice, admin, corp` and `bob, admin, corp`. -/
theorem DeleteUser_correct_witness :
    ∃ m₁ : RuleManager,
      (managerWith [["alice", "admin", "corp"], ["bob", "admin", "corp"]] []).DeleteUser "alice" =
        some (m₁, true) ∧
      m₁.rules.GetRule "g" "g" = some [["bob", "admin", "corp"]] := by
  obtain ⟨m₁, h₁, h₂⟩ := DeleteUser_correct
    (managerWith [["alice", "admin", "corp"], ["bob", "admin", "corp"]] [])
    { Key := "g", Value := "_, _, _", Tokens := [],
      Rule := [["alice", "admin", "corp"], ["bob", "admin", "corp"]], RM := RMPtr.nil }
    "alice" (by decide) (by decide) (by decide) (by decide) (by decide)
  refine ⟨m₁, ?_, ?_⟩
  · rw [h₁]
    simp only [Option.some.injEq, Prod.mk.injEq, true_and]
    decide
  · rw [h₂]
    decide

/-- C7, refuted as stated. The `g` tuple `a, b` has 2 fields and the `p` tuple
`c, data, read` has subject `c`; `DeleteRole("c")` fails in the rebuild that
follows the `g` removal, before the `p` removal runs. -/
theorem DeleteRole_counterexample :
    (managerLoaded ["g, a, b", "p, c, data, read"]).map
        (fun m => (m.rules.GetRule "g" "g", m.rules.GetRule "p" "p", m.DeleteRole "c")) =
      some (some [["a", "b"]], some [["c", "data", "read"]], none) := by
  decide

/-- C7, amended. When every `g` tuple has at least 2 fields, every `g` tuple
that is kept has at least the 3 fields the rebuild asks for, and every `p`
tuple has at least 1 field, `DeleteRole(role)` returns; afterwards no `g`
tuple has field 1 equal to `role` and no `p` tuple has field 0 equal to
`role`: the `g` list is the old one without the tuples it matched, and so is
the `p` list. -/
theorem DeleteRole_cascade (m : RuleManager) (gast past : Assertion) (role : String)
    (hg : mapGet "g" m.rules = some [("g", gast)]) (hv : stringsCount gast.Value = 3)
    (hp : m.rules.assertion "p" "p" = some past)
    (hg2 : ∀ t ∈ gast.Rule, 2 ≤ t.length)
    (hg3 : ∀ t ∈ gast.Rule, role ≠ "" → t.get? 1 ≠ some role → 3 ≤ t.length)
    (hp1 : ∀ t ∈ past.Rule, 1 ≤ t.length) :
    ∃ (m₂ : RuleManager) (gs ps : List (List String)),
      m.DeleteRole role = some m₂ ∧
      m₂.rules.GetRule "g" "g" = some gs ∧
      m₂.rules.GetRule "p" "p" = some ps ∧
      (∀ t ∈ gs, t.get? 1 ≠ some role) ∧
      (∀ t ∈ ps, t.get? 0 ≠ some role) ∧
      gs = gast.Rule.filter (fun t => decide (role ≠ "" ∧ t.get? 1 ≠ some role)) ∧
      ps = past.Rule.filter (fun t => decide (role ≠ "" ∧ t.get? 0 ≠ some role)) := by
  have hspec₀ : ∀ t : List String,
      ¬ specMatches t 0 [role] ↔ (role ≠ "" ∧ t.get? 0 ≠ some role) := by
    intro t
    rw [specMatches_single, goIndex_zero]
    simp [not_or]
  have hspec₁ : ∀ t : List String,
      ¬ specMatches t 1 [role] ↔ (role ≠ "" ∧ t.get? 1 ≠ some role) := by
    intro t
    rw [specMatches_single, goIndex_one]
    simp [not_or]
  have hsafeg : ∀ r ∈ gast.Rule, ¬ readsOutside r 1 [role] :=
    fun r hr => not_readsOutside_one r role (hg2 r hr)
  have hsafep : ∀ r ∈ past.Rule, ¬ readsOutside r 0 [role] :=
    fun r hr => not_readsOutside_zero r role (hp1 r hr)
  have harity : ∀ t ∈ gast.Rule, ¬ specMatches t 1 [role] → 3 ≤ t.length :=
    fun t ht hn => hg3 t ht ((hspec₁ t).mp hn).1 ((hspec₁ t).mp hn).2
  have hgeq := removeFilteredGroupingRule_eq m gast 1 [role] hg hv hsafeg harity
  simp only [hspec₁] at hgeq
  have hp' := (regrouped_assertion_other m gast
    (gast.Rule.filter (fun t => decide (role ≠ "" ∧ t.get? 1 ≠ some role))) "p" "p"
    (by decide)).trans hp
  have hpeq := RemoveFilteredRule_eq _ "p" "p" 0 [role] past hp' hsafep
  simp only [hspec₀] at hpeq
  refine ⟨{ m.regrouped gast
        (gast.Rule.filter (fun t => decide (role ≠ "" ∧ t.get? 1 ≠ some role))) with
      rules := (m.regrouped gast
        (gast.Rule.filter (fun t => decide (role ≠ "" ∧ t.get? 1 ≠ some role)))).rules.setRule
          "p" "p" (past.Rule.filter (fun t => decide (role ≠ "" ∧ t.get? 0 ≠ some role))) },
    _, _, ?_, ?_, GetRule_setRule_same _ "p" "p" past _ hp', ?_, ?_, rfl, rfl⟩
  · simp only [RuleManager.DeleteRole, hgeq, RuleManager.removeFilteredRules,
      RuleManager.removeFilteredNamedRule, RuleManager.removeFilteredRule, hpeq]
  · simp only [Model.GetRule, Model.assertion]
    rw [mapGet_setRule_other _ "p" "p" "g" _ (by decide)]
    exact regrouped_GetRule m gast _
  · intro t ht
    have := (List.mem_filter.mp ht).2
    simp only [decide_eq_true_eq] at this
    exact this.2
  · intro t ht
    have := (List.mem_filter.mp ht).2
    simp only [decide_eq_true_eq] at this
    exact this.2

/-- C7 amended, at a concrete input: with the grant `u, r, D` and the `p`
tuple `r, D, data, read`, `DeleteRole("r")` removes both tuples and keeps the
grant `v, s, D` and the `p` tuple of subject `s`. -/
theorem DeleteRole_cascade_witness :
    ∃ m₂ : RuleManager,
      (managerWith [["u", "r", "D"], ["v", "s", "D"]]
        [["r", "D", "data", "read"], ["s", "D", "data", "read"]]).DeleteRole "r" = some m₂ ∧
      m₂.rules.GetRule "g" "g" = some [["v", "s", "D"]] ∧
      m₂.rules.GetRule "p" "p" = some [["s", "D", "data", "read"]] := by
  obtain ⟨m₂, gs, ps, h₁, h₂, h₃, _, _, h₆, h₇⟩ := DeleteRole_cascade
    (managerWith [["u", "r", "D"], ["v", "s", "D"]]
      [["r", "D", "data", "read"], ["s", "D", "data", "read"]])
    { Key := "g", Value := "_, _, _", Tokens := [],
      Rule := [["u", "r", "D"], ["v", "s", "D"]], RM := RMPtr.nil }
    { Key := "p", Value := "sub, dom, obj, act",
      Tokens := ["p_sub", "p_dom", "p_obj", "p_act"],
      Rule := [["r", "D", "data", "read"], ["s", "D", "data", "read"]], RM := RMPtr.nil }
    "r" (by decide) (by decide) (by decide) (by decide) (by decide) (by decide)
  refine ⟨m₂, h₁, ?_, ?_⟩
  · rw [h₂, h₆]
    decide
  · rw [h₃, h₇]
    decide

theorem countP_eq_zero_of_not_mem (l : List (List String)) (a : List String) (hm : a ∉ l) :
    l.countP (fun t => decide (t = a)) = 0 := by
  rw [List.countP_eq_zero]
  intro t ht hta
  simp only [decide_eq_true_eq] at hta
  exact hm (hta ▸ ht)

theorem countP_eq_one_of_nodup (l : List (List String)) (a : List String) (hnd : l.Nodup)
    (hm : a ∈ l) : l.countP (fun t => decide (t = a)) = 1 := by
  induction l with
  | nil => simp at hm
  | cons x xs ih =>
    have hx : x ∉ xs := (List.nodup_cons.mp hnd).1
    have hxs : xs.Nodup := (List.nodup_cons.mp hnd).2
    by_cases hxa : x = a
    · subst hxa
      rw [List.countP_cons, countP_eq_zero_of_not_mem xs x hx]
      simp
    · have hmem : a ∈ xs := by
        rcases List.mem_cons.mp hm with h | h
        · exact absurd h.symm hxa
        · exact h
      rw [List.countP_cons, ih hxs hmem]
      simp [hxa]

/-- C8, refuted as stated. The `g` rule list with the single one-field tuple
`x` has no two equal tuples, and `AddRoleForUserInDomain("u", "r", "d")` fails
on it, in the rebuild. -/
theorem AddRoleForUserInDomain_counterexample :
    (managerLoaded ["g, x"]).map
        (fun m => (m.rules.GetRule "g" "g", m.AddRoleForUserInDomain "u" "r" "d")) =
      some (some [["x"]], none) := by
  decide

/-- C8, amended. When the `g` rule list has no two equal tuples and every `g`
tuple has at least the 3 fields the rebuild asks for,
`AddRoleForUserInDomain(user, role, domain)` returns true exactly when the
tuple `user, role, domain` was not yet in the list; afterwards the list holds
that tuple exactly once, appended last when it is new and the list unchanged
when it was there, and section `p` is unchanged. -/
theorem AddRoleForUserInDomain_correct (m : RuleManager) (ast : Assertion)
    (user role domain : String)
    (hg : mapGet "g" m.rules = some [("g", ast)]) (hv : stringsCount ast.Value = 3)
    (hI1 : ast.Rule.Nodup) (hI2 : ∀ t ∈ ast.Rule, 3 ≤ t.length) :
    ∃ (m₁ : RuleManager) (rule : List (List String)),
      m.AddRoleForUserInDomain user role domain =
        some (m₁, decide ([user, role, domain] ∉ ast.Rule)) ∧
      m₁.rules.GetRule "g" "g" = some rule ∧
      rule = (if [user, role, domain] ∈ ast.Rule then ast.Rule
              else ast.Rule ++ [[user, role, domain]]) ∧
      rule.countP (fun t => decide (t = [user, role, domain])) = 1 ∧
      mapGet "p" m₁.rules = mapGet "p" m.rules := by
  have heq := AddRoleForUserInDomain_eq m ast user role domain hg hv hI2
  by_cases hm : [user, role, domain] ∈ ast.Rule
  · simp only [hm, if_true] at heq
    refine ⟨m.regrouped ast ast.Rule, ast.Rule, ?_, regrouped_GetRule m ast _, ?_, ?_,
      regrouped_mapGet_other m ast _ "p" (by decide)⟩
    · simp [heq, hm]
    · simp [hm]
    · exact countP_eq_one_of_nodup ast.Rule _ hI1 hm
  · simp only [hm, if_false] at heq
    refine ⟨m.regrouped ast (ast.Rule ++ [[user, role, domain]]),
      ast.Rule ++ [[user, role, domain]], ?_, regrouped_GetRule m ast _, ?_, ?_,
      regrouped_mapGet_other m ast _ "p" (by decide)⟩
    · simp [heq, hm]
    · simp [hm]
    · rw [List.countP_append, countP_eq_zero_of_not_mem ast.Rule _ hm]
      simp

/-- C8 amended, at a concrete input: the grant `bob, admin, corp` added to a
manager that holds the grant `alice, admin, corp`. -/
theorem AddRoleForUserInDomain_correct_witness :
    ∃ (m₁ : RuleManager) (rule : List (List String)),
      (managerWith [["alice", "admin", "corp"]] []).AddRoleForUserInDomain "bob" "admin" "corp" =
        some (m₁, true) ∧
      m₁.rules.GetRule "g" "g" = some rule ∧
      rule = [["alice", "admin", "corp"], ["bob", "admin", "corp"]] ∧
      rule.countP (fun t => decide (t = ["bob", "admin", "corp"])) = 1 ∧
      mapGet "p" m₁.rules = mapGet "p" (managerWith [["alice", "admin", "corp"]] []).rules := by
  obtain ⟨m₁, rule, h₁, h₂, h₃, h₄, h₅⟩ := AddRoleForUserInDomain_correct
    (managerWith [["alice", "admin", "corp"]] [])
    { Key := "g", Value := "_, _, _", Tokens := [],
      Rule := [["alice", "admin", "corp"]], RM := RMPtr.nil }
    "bob" "admin" "corp" (by decide) (by decide) (by decide) (by decide)
  refine ⟨m₁, rule, ?_, h₂, ?_, h₄, h₅⟩
  · rw [h₁]
    simp only [Option.some.injEq, Prod.mk.injEq, true_and]
    decide
  · rw [h₃]
    decide

/-! ## Invariant I1 -/

theorem AllNodup_assertion (model : Model) (sec key : String) (ast : Assertion)
    (hinv : AllNodup model) (h : model.assertion sec key = some ast) : ast.Rule.Nodup := by
  unfold Model.assertion at h
  cases hs : mapGet sec model with
  | none => simp [hs] at h
  | some am =>
    simp only [hs] at h
    exact hinv (sec, am) (mem_of_mapGet sec am model hs) (key, ast) (mem_of_mapGet key ast am h)

theorem AllNodup_setRule (model : Model) (sec key : String) (rule : List (List String))
    (hinv : AllNodup model) (hrule : rule.Nodup) : AllNodup (model.setRule sec key rule) := by
  unfold Model.setRule
  cases hs : mapGet sec model with
  | none => exact hinv
  | some am =>
    cases hk : mapGet key am with
    | none => simpa [hk] using hinv
    | some ast =>
      simp only [hk]
      intro e he e' he'
      rcases mem_mapSet sec _ model e he with h1 | h1
      · exact hinv e h1 e' he'
      · subst h1
        rcases mem_mapSet key _ am e' he' with h2 | h2
        · exact hinv (sec, am) (mem_of_mapGet sec am model hs) e' h2
        · subst h2
          exact hrule

theorem AllNodup_clearSection (model : Model) (sec : String) (hinv : AllNodup model) :
    AllNodup (model.clearSection sec) := by
  unfold Model.clearSection
  cases hs : mapGet sec model with
  | none => exact hinv
  | some am =>
    intro e he e' he'
    rcases mem_mapSet sec _ model e he with h1 | h1
    · exact hinv e h1 e' he'
    · subst h1
      simp only [clearRules, List.mem_map] at he'
      obtain ⟨x, _, hx⟩ := he'
      subst hx
      exact List.nodup_nil

theorem removeFilteredLoop_sublist (fi : Int) (fvs : List String)
    (rules tmp tmp' : List (List String)) (res res' : Bool)
    (h : removeFilteredLoop fi fvs rules tmp res = some (tmp', res')) :
    ∃ s, s.Sublist rules ∧ tmp' = tmp ++ s := by
  induction rules generalizing tmp res with
  | nil =>
    simp only [removeFilteredLoop, Option.some.injEq, Prod.mk.injEq] at h
    exact ⟨[], List.Sublist.refl _, by simp [h.1]⟩
  | cons r rest ih =>
    rw [removeFilteredLoop] at h
    cases hm : matchLoop r fi 0 fvs with
    | none => simp [hm] at h
    | some b =>
      cases b with
      | true =>
        simp only [hm] at h
        obtain ⟨s, hs, heq⟩ := ih _ _ h
        exact ⟨s, List.Sublist.cons _ hs, heq⟩
      | false =>
        simp only [hm] at h
        obtain ⟨s, hs, heq⟩ := ih _ _ h
        exact ⟨r :: s, List.Sublist.cons₂ _ hs, by simp [heq]⟩

theorem AllNodup_newModel : AllNodup newModel := by
  unfold AllNodup
  decide

theorem AllNodup_of_Reachable (model : Model) (h : Reachable model) : AllNodup model := by
  induction h with
  | init => exact AllNodup_newModel
  | @add m m' sec ptype rule b _ hs ih =>
    cases ha : m.assertion sec ptype with
    | none => simp [Model.Add, Model.HasRule, ha] at hs
    | some ast =>
      rw [Add_eq m sec ptype ast rule ha] at hs
      by_cases hm : rule ∈ ast.Rule
      · simp only [hm, if_true, Option.some.injEq, Prod.mk.injEq] at hs
        exact hs.1 ▸ ih
      · simp only [hm, if_false, Option.some.injEq, Prod.mk.injEq] at hs
        rw [← hs.1]
        apply AllNodup_setRule m sec ptype _ ih
        have hnd := AllNodup_assertion m sec ptype ast ih ha
        exact List.Nodup.append hnd (List.nodup_singleton _) (by simpa using hm)
  | @remove m m' sec ptype rule b _ hs ih =>
    cases ha : m.assertion sec ptype with
    | none => simp [Model.Remove, ha] at hs
    | some ast =>
      simp only [Model.Remove, ha] at hs
      cases hi : removeIndex rule ast.Rule 0 with
      | none =>
        simp only [hi, Option.some.injEq, Prod.mk.injEq] at hs
        exact hs.1 ▸ ih
      | some i =>
        simp only [hi, Option.some.injEq, Prod.mk.injEq] at hs
        rw [← hs.1]
        apply AllNodup_setRule m sec ptype _ ih
        have hnd := AllNodup_assertion m sec ptype ast ih ha
        rw [← List.eraseIdx_eq_take_drop_succ]
        exact hnd.sublist (List.eraseIdx_sublist _ _)
  | @removeFiltered m m' sec ptype fi fvs b _ hs ih =>
    cases ha : m.assertion sec ptype with
    | none => simp [Model.RemoveFilteredRule, ha] at hs
    | some ast =>
      simp only [Model.RemoveFilteredRule, ha] at hs
      cases hl : removeFilteredLoop fi fvs ast.Rule [] false with
      | none => simp [hl] at hs
      | some r =>
        obtain ⟨tmp, res⟩ := r
        simp only [hl, Option.some.injEq, Prod.mk.injEq] at hs
        rw [← hs.1]
        apply AllNodup_setRule m sec ptype _ ih
        obtain ⟨s, hsub, heq⟩ := removeFilteredLoop_sublist fi fvs ast.Rule [] tmp false res hl
        have hnd := AllNodup_assertion m sec ptype ast ih ha
        rw [heq]
        simpa using hnd.sublist hsub
  | clear _ ih =>
    exact AllNodup_clearSection _ "g" (AllNodup_clearSection _ "p" ih)
  | @load m m' line _ hs hnew ih =>
    unfold loadRuleLineToModel at hs
    by_cases h1 : line = ""
    · simp only [h1, if_true, Option.some.injEq] at hs
      exact hs ▸ ih
    · by_cases h2 : stringsHasPrefix line = true
      · simp only [h1, h2, if_true, if_false, Option.some.injEq] at hs
        exact hs ▸ ih
      · simp only [h1, h2, if_false] at hs
        unfold loadsDuplicate at hnew
        cases hsp : stringsSplit line with
        | nil => simp [hsp] at hs
        | cons key tokens =>
          simp only [hsp] at hs hnew
          cases hf : firstByte key with
          | none => simp [hf] at hs
          | some sec =>
            simp only [hf] at hs hnew
            cases ha : m.assertion sec key with
            | none => simp [ha] at hs
            | some ast =>
              simp only [ha, Bool.false_eq_true, if_false, Option.some.injEq] at hs
              rw [HasRule_eq m sec key ast tokens ha] at hnew
              have hm : tokens ∉ ast.Rule := by simpa using hnew
              rw [← hs]
              apply AllNodup_setRule m sec key _ ih
              have hnd := AllNodup_assertion m sec key ast ih ha
              exact List.Nodup.append hnd (List.nodup_singleton _) (by simpa using hm)

/-- C9, refuted as stated. Loading the line `p, alice, data, read` twice with
`loadRuleLineToModel` leaves the `p` rule list with two equal tuples. -/
theorem uniqueness_counterexample :
    ((loadRuleLineToModel "p, alice, data, read" newModel).bind
        (loadRuleLineToModel "p, alice, data, read")).map (fun m => m.GetRule "p" "p") =
      some (some [["alice", "data", "read"], ["alice", "data", "read"]]) := by
  decide

/-- C9, amended. Invariant I1: in every model reached from `newModel()` by
`Add`, `Remove`, `RemoveFilteredRule`, `Clear` and by `loadRuleLineToModel`
calls that do not load a tuple its rule list already holds, no assertion's
rule list contains two equal tuples. -/
theorem uniqueness_invariant (model : Model) (h : Reachable model) (sec key : String)
    (ast : Assertion) (ha : model.assertion sec key = some ast) : ast.Rule.Nodup :=
  AllNodup_assertion model sec key ast (AllNodup_of_Reachable model h) ha

/-- C9 amended, at a concrete input: the model after `Add` of the `p` tuple
`alice, data, read`, the load of the line `p, bob, data, read` and the removal
of the rules of subject `alice`. -/
theorem uniqueness_invariant_witness :
    Reachable (newModel.setRule "p" "p" [["bob", "data", "read"]]) ∧
    (newModel.setRule "p" "p" [["bob", "data", "read"]]).GetRule "p" "p" =
      some [["bob", "data", "read"]] ∧
    List.Nodup [["bob", "data", "read"]] := by
  have hreach : Reachable (newModel.setRule "p" "p" [["bob", "data", "read"]]) :=
    Reachable.removeFiltered
      (Reachable.load
        (Reachable.add Reachable.init
          (by decide : newModel.Add "p" "p" ["alice", "data", "read"] =
            some (newModel.setRule "p" "p" [["alice", "data", "read"]], true)))
        (by decide : loadRuleLineToModel "p, bob, data, read"
            (newModel.setRule "p" "p" [["alice", "data", "read"]]) =
          some (newModel.setRule "p" "p" [["alice", "data", "read"], ["bob", "data", "read"]]))
        (by decide))
      (by decide : (newModel.setRule "p" "p"
            [["alice", "data", "read"], ["bob", "data", "read"]]).RemoveFilteredRule
          "p" "p" 0 ["alice"] =
        some (newModel.setRule "p" "p" [["bob", "data", "read"]], true))
  exact ⟨hreach, by decide,
    uniqueness_invariant (newModel.setRule "p" "p" [["bob", "data", "read"]]) hreach "p" "p"
      { Key := "p", Value := "sub, dom, obj, act",
        Tokens := ["p_sub", "p_dom", "p_obj", "p_act"], Rule := [["bob", "data", "read"]],
        RM := RMPtr.nil }
      (by decide)⟩

/-! ## The resolver after a rebuild -/

theorem AddLink_depth (rm : RoleManager) (c p : String) (d : List String) :
    (rm.AddLink c p d).maxHierarchyDepth = rm.maxHierarchyDepth := by
  unfold RoleManager.AddLink
  split <;> rfl

theorem AddLink_mem_old (rm : RoleManager) (c p : String) (d : List String) (l : Link)
    (h : l ∈ rm.links) : l ∈ (rm.AddLink c p d).links := by
  unfold RoleManager.AddLink
  split
  · exact h
  · exact List.mem_append_left _ h

theorem AddLink_mem_new (rm : RoleManager) (c p : String) (d : List String) :
    Link.mk c p d ∈ (rm.AddLink c p d).links := by
  unfold RoleManager.AddLink
  split
  · assumption
  · simp

theorem replayLinks_depth (rules : List (List String)) (rm : RoleManager) :
    (replayLinks rules rm).maxHierarchyDepth = rm.maxHierarchyDepth := by
  induction rules generalizing rm with
  | nil => rfl
  | cons t rest ih =>
    simp only [replayLinks, List.foldl_cons]
    exact (ih _).trans (AddLink_depth rm _ _ _)

theorem replayLinks_mem_old (rules : List (List String)) (rm : RoleManager) (l : Link)
    (h : l ∈ rm.links) : l ∈ (replayLinks rules rm).links := by
  induction rules generalizing rm with
  | nil => exact h
  | cons t rest ih =>
    simp only [replayLinks, List.foldl_cons]
    exact ih _ (AddLink_mem_old rm _ _ _ l h)

theorem replayLinks_mem (rules : List (List String)) (rm : RoleManager) (t : List String)
    (h : t ∈ rules) :
    Link.mk (t.getD 0 "") (t.getD 1 "") [t.getD 2 ""] ∈ (replayLinks rules rm).links := by
  induction rules generalizing rm with
  | nil => simp at h
  | cons t' rest ih =>
    simp only [replayLinks, List.foldl_cons]
    rcases List.mem_cons.mp h with heq | hmem
    · subst heq
      exact replayLinks_mem_old rest _ _ (AddLink_mem_new rm _ _ _)
    · exact ih _ hmem

/-! ## Breadth-first traversal -/

theorem mem_discover (visited cs : List String) (c : String) (hc : c ∈ cs)
    (hv : c ∉ visited) : c ∈ discover visited cs := by
  induction cs generalizing visited with
  | nil => simp at hc
  | cons x xs ih =>
    rw [discover]
    by_cases hx : x ∈ visited
    · simp only [hx, if_true]
      rcases List.mem_cons.mp hc with heq | hmem
      · exact absurd (heq ▸ hx) hv
      · exact ih visited hmem hv
    · simp only [hx, if_false]
      by_cases hcx : c = x
      · simp [hcx]
      · rcases List.mem_cons.mp hc with heq | hmem
        · exact absurd heq hcx
        · exact List.mem_cons_of_mem _ (ih (x :: visited) hmem (by simp [hcx, hv]))

theorem mem_bfs_direct (next : String → List String) (depth : Nat) (name c : String)
    (hc : c ∈ next name) (hne : c ≠ name) (hd : 1 ≤ depth) :
    c ∈ bfs next depth [name] [name] := by
  obtain ⟨d, rfl⟩ : ∃ d, depth = d + 1 := ⟨depth - 1, by omega⟩
  have hfound : c ∈ discover [name] ([name].flatMap next) :=
    mem_discover [name] _ c (by simpa using hc) (by simpa using hne)
  rw [bfs]
  have hne' : (discover [name] ([name].flatMap next)).isEmpty = false := by
    cases hl : discover [name] ([name].flatMap next) with
    | nil => rw [hl] at hfound; simp at hfound
    | cons _ _ => rfl
  simp only [hne', Bool.false_eq_true, if_false]
  exact List.mem_append_left _ hfound

theorem mem_parentsOf (rm : RoleManager) (c p : String) (d : List String)
    (h : Link.mk c p d ∈ rm.links) : p ∈ rm.parentsOf d c := by
  unfold RoleManager.parentsOf
  exact List.mem_map.mpr ⟨Link.mk c p d, List.mem_filter.mpr ⟨h, by simp⟩, rfl⟩

theorem mem_childrenOf (rm : RoleManager) (c p : String) (d : List String)
    (h : Link.mk c p d ∈ rm.links) : c ∈ rm.childrenOf d p := by
  unfold RoleManager.childrenOf
  exact List.mem_map.mpr ⟨Link.mk c p d, List.mem_filter.mpr ⟨h, by simp⟩, rfl⟩

/-! ## Managers reached by grants -/

theorem GrantShape_new : GrantShape newRuleManager :=
  ⟨{ Key := "g", Value := "_, _, _", Tokens := [], Rule := [], RM := RMPtr.nil },
    by decide, by decide, by decide, by decide, by decide⟩

theorem GrantShape_regrouped (m : RuleManager) (ast : Assertion) (rule : List (List String))
    (hv : stringsCount ast.Value = 3) (harity : ∀ t ∈ rule, 3 ≤ t.length)
    (ha : m.autobuildRoleLinks = true) (hd : 1 ≤ m.rm.maxHierarchyDepth) :
    GrantShape (m.regrouped ast rule) := by
  refine ⟨{ ast with Rule := rule, RM := RMPtr.rm }, ?_, hv, harity, ?_, ?_⟩
  · simp [RuleManager.regrouped, ha, mapGet_mapSet_same]
  · simp [RuleManager.regrouped, ha]
  · simp [RuleManager.regrouped, ha, replayLinks_depth, RoleManager.Clear, hd]

theorem GrantShape_of_AddReachable (m : RuleManager) (h : AddReachable m) : GrantShape m := by
  induction h with
  | init => exact GrantShape_new
  | @step m m' user role domain b _ hs ih =>
    obtain ⟨ast, hg, hv, harity, ha, hd⟩ := ih
    rw [AddRoleForUserInDomain_eq m ast user role domain hg hv harity] at hs
    by_cases hm : [user, role, domain] ∈ ast.Rule
    · simp only [hm, if_true, Option.some.injEq, Prod.mk.injEq] at hs
      rw [← hs.1]
      exact GrantShape_regrouped m ast _ hv harity ha hd
    · simp only [hm, if_false, Option.some.injEq, Prod.mk.injEq] at hs
      rw [← hs.1]
      apply GrantShape_regrouped m ast _ hv _ ha hd
      intro t ht
      rcases List.mem_append.mp ht with h | h
      · exact harity t h
      · simp at h
        simp [h]

theorem regrouped_groupingRM (m : RuleManager) (ast : Assertion) (rule : List (List String))
    (ha : m.autobuildRoleLinks = true) :
    (m.regrouped ast rule).groupingRM = some (replayLinks rule m.rm.Clear) := by
  simp [RuleManager.regrouped, ha, RuleManager.groupingRM, Model.assertion, mapGet_mapSet_same,
    mapGet]

/-- C10, refuted on the code. On the manager `newRuleManager()` returns, the
`RM` pointer of the `g` assertion is still nil (only `buildRoleLinks` sets
it), and each of the five queries dereferences it: none of them returns. -/
theorem fresh_manager_queries_fail (name domain role : String) :
    newRuleManager.GetRolesForUser name = none ∧
    newRuleManager.GetRolesForUserInDomain name domain = none ∧
    newRuleManager.GetUsersForRole name = none ∧
    newRuleManager.GetUsersForRoleInDomain name domain = none ∧
    newRuleManager.HasRoleForUser name role = none := by
  have h : newRuleManager.groupingRM = none := by decide
  simp [RuleManager.GetRolesForUser, RuleManager.GetRolesForUserInDomain,
    RuleManager.GetUsersForRole, RuleManager.GetUsersForRoleInDomain,
    RuleManager.HasRoleForUser, h]

/-- C1, refuted as stated. After the grant of role `a` to user `a` in domain
`d` on a new manager, the role query for `a` in `d` and the user query for `a`
in `d` are both empty: a closure leaves out the name it starts from. -/
theorem self_grant_counterexample :
    (newRuleManager.AddRoleForUserInDomain "a" "a" "d").map
        (fun r => (r.1.GetRolesForUserInDomain "a" "d", r.1.GetUsersForRoleInDomain "a" "d")) =
      some (some [], some []) := by
  decide

/-- C1, amended. In every manager reached from `newRuleManager()` by
`AddRoleForUserInDomain` calls, and for all strings `user`, `role`, `domain`
with `user` different from `role`: `AddRoleForUserInDomain(user, role, domain)`
returns, and afterwards `GetRolesForUserInDomain(user, domain)` contains
`role` and `GetUsersForRoleInDomain(role, domain)` contains `user`; both are
non-empty. -/
theorem grant_visible (m : RuleManager) (h : AddReachable m) (user role domain : String)
    (hne : user ≠ role) :
    ∃ (m' : RuleManager) (b : Bool) (roles users : List String),
      m.AddRoleForUserInDomain user role domain = some (m', b) ∧
      m'.GetRolesForUserInDomain user domain = some roles ∧
      roles ≠ [] ∧ role ∈ roles ∧
      m'.GetUsersForRoleInDomain role domain = some users ∧
      users ≠ [] ∧ user ∈ users := by
  obtain ⟨ast, hg, hv, harity, ha, hd⟩ := GrantShape_of_AddReachable m h
  have heq := AddRoleForUserInDomain_eq m ast user role domain hg hv harity
  have key : ∀ (rule : List (List String)) (b : Bool), [user, role, domain] ∈ rule →
      m.AddRoleForUserInDomain user role domain = some (m.regrouped ast rule, b) →
      ∃ (m' : RuleManager) (b : Bool) (roles users : List String),
        m.AddRoleForUserInDomain user role domain = some (m', b) ∧
        m'.GetRolesForUserInDomain user domain = some roles ∧
        roles ≠ [] ∧ role ∈ roles ∧
        m'.GetUsersForRoleInDomain role domain = some users ∧
        users ≠ [] ∧ user ∈ users := by
    intro rule b hmem hres
    have hlink : Link.mk user role [domain] ∈ (replayLinks rule m.rm.Clear).links := by
      simpa using replayLinks_mem rule m.rm.Clear [user, role, domain] hmem
    have hdepth : 1 ≤ (replayLinks rule m.rm.Clear).maxHierarchyDepth := by
      rw [replayLinks_depth]
      exact hd
    have hroles : role ∈ (replayLinks rule m.rm.Clear).GetRoles user [domain] :=
      mem_bfs_direct _ _ user role (mem_parentsOf _ _ _ _ hlink) (Ne.symm hne) hdepth
    have husers : user ∈ (replayLinks rule m.rm.Clear).GetUsers role [domain] :=
      mem_bfs_direct _ _ role user (mem_childrenOf _ _ _ _ hlink) hne hdepth
    refine ⟨m.regrouped ast rule, b, _, _, hres, ?_, List.ne_nil_of_mem hroles, hroles, ?_,
      List.ne_nil_of_mem husers, husers⟩
    · simp [RuleManager.GetRolesForUserInDomain, regrouped_groupingRM m ast rule ha]
    · simp [RuleManager.GetUsersForRoleInDomain, regrouped_groupingRM m ast rule ha]
  by_cases hm : [user, role, domain] ∈ ast.Rule
  · simp only [hm, if_true] at heq
    exact key _ _ hm heq
  · simp only [hm, if_false] at heq
    exact key _ _ (by simp) heq

/-- C1 amended, at a concrete input: the first grant of `TestRuleManager`,
`Bruce Lee` with role `master` in `Kung Fu`, on the new manager. -/
theorem grant_visible_witness :
    ∃ (m' : RuleManager) (b : Bool) (roles users : List String),
      newRuleManager.AddRoleForUserInDomain "Bruce Lee" "master" "Kung Fu" = some (m', b) ∧
      m'.GetRolesForUserInDomain "Bruce Lee" "Kung Fu" = some roles ∧
      roles ≠ [] ∧ "master" ∈ roles ∧
      m'.GetUsersForRoleInDomain "master" "Kung Fu" = some users ∧
      users ≠ [] ∧ "Bruce Lee" ∈ users :=
  grant_visible newRuleManager AddReachable.init "Bruce Lee" "master" "Kung Fu" (by decide)

/-- The run of `TestRuleManager`: after its four grants the role query for
`Bruce Lee` and the user query for `master` in `Kung Fu` are not empty. -/
theorem TestRuleManager_run :
    ((((newRuleManager.AddRoleForUserInDomain "Bruce Lee" "master" "Kung Fu").bind
        (fun r => r.1.AddRoleForUserInDomain "YIP Man" "master" "Kung Fu")).bind
        (fun r => r.1.AddRoleForUserInDomain "Peter" "fan" "Kung Fu")).bind
        (fun r => r.1.AddRoleForUserInDomain "Tom" "fan" "Kung Fu")).map
      (fun r => (r.1.GetRolesForUserInDomain "Bruce Lee" "Kung Fu",
        r.1.GetUsersForRoleInDomain "master" "Kung Fu")) =
      some (some ["master"], some ["Bruce Lee", "YIP Man"]) := by
  decide

/-- C2. On a new manager, for pairwise distinct `u`, `r1`, `r2` and domains
`d`, `d2` with `d2` different from `d`: the grants `u, r1, d` and `r1, r2, d`
both return true, and afterwards the roles of `u` in `d` are `r1, r2` in that
order, the users of `r2` in `d` are `r1` and `u`, and `u` has no role in
`d2`. -/
theorem end_to_end (u r1 r2 d d2 : String) (h12 : u ≠ r1) (h13 : u ≠ r2) (h23 : r1 ≠ r2)
    (hd : d2 ≠ d) :
    ∃ m₁ m₂ : RuleManager,
      newRuleManager.AddRoleForUserInDomain u r1 d = some (m₁, true) ∧
      m₁.AddRoleForUserInDomain r1 r2 d = some (m₂, true) ∧
      m₂.GetRolesForUserInDomain u d = some [r1, r2] ∧
      m₂.GetUsersForRoleInDomain r2 d = some [r1, u] ∧
      m₂.GetRolesForUserInDomain u d2 = some [] := by
  let ast₀ : Assertion :=
    { Key := "g", Value := "_, _, _", Tokens := [], Rule := [], RM := RMPtr.nil }
  let ast₁ : Assertion := { ast₀ with Rule := [[u, r1, d]], RM := RMPtr.rm }
  have hg₀ : mapGet "g" newRuleManager.rules = some [("g", ast₀)] := by decide
  have hv₀ : stringsCount ast₀.Value = 3 := by decide
  have ha₀ : newRuleManager.autobuildRoleLinks = true := rfl
  have h₁ := AddRoleForUserInDomain_eq newRuleManager ast₀ u r1 d hg₀ hv₀ (by simp [ast₀])
  have hnil : ([u, r1, d] ∈ ast₀.Rule) = False := by simp [ast₀]
  simp only [hnil, if_false] at h₁
  have hg₁ : mapGet "g" (newRuleManager.regrouped ast₀ (ast₀.Rule ++ [[u, r1, d]])).rules
      = some [("g", ast₁)] := by
    simp [RuleManager.regrouped, ha₀, mapGet_mapSet_same, ast₁, ast₀]
  have ha₁ : (newRuleManager.regrouped ast₀ (ast₀.Rule ++ [[u, r1, d]])).autobuildRoleLinks
      = true := by
    rw [regrouped_autobuild]
    rfl
  have h₂ := AddRoleForUserInDomain_eq _ ast₁ r1 r2 d hg₁ hv₀ (by simp [ast₁])
  have hnot : ([r1, r2, d] ∈ ast₁.Rule) = False := by
    simp [ast₁, Ne.symm h12]
  simp only [hnot, if_false] at h₂
  refine ⟨_, _, h₁, h₂, ?_, ?_, ?_⟩
  · simp only [RuleManager.GetRolesForUserInDomain, regrouped_groupingRM _ ast₁ _ ha₁]
    simp [ast₁, replayLinks, RoleManager.AddLink, RoleManager.Clear, RoleManager.GetRoles,
      RoleManager.parentsOf, bfs, discover, replayLinks_depth, RuleManager.regrouped, ha₀,
      newRuleManager, newRoleManager, h12, h13, h23, Ne.symm h12, Ne.symm h13, Ne.symm h23]
  · simp only [RuleManager.GetUsersForRoleInDomain, regrouped_groupingRM _ ast₁ _ ha₁]
    simp [ast₁, replayLinks, RoleManager.AddLink, RoleManager.Clear, RoleManager.GetUsers,
      RoleManager.childrenOf, bfs, discover, replayLinks_depth, RuleManager.regrouped, ha₀,
      newRuleManager, newRoleManager, h12, h13, h23, Ne.symm h12, Ne.symm h13, Ne.symm h23]
  · simp only [RuleManager.GetRolesForUserInDomain, regrouped_groupingRM _ ast₁ _ ha₁]
    simp [ast₁, replayLinks, RoleManager.AddLink, RoleManager.Clear, RoleManager.GetRoles,
      RoleManager.parentsOf, bfs, discover, replayLinks_depth, RuleManager.regrouped, ha₀,
      newRuleManager, newRoleManager, h12, h13, h23, Ne.symm h12, Ne.symm h13, Ne.symm h23,
      Ne.symm hd, hd]

/-- C2, at the input of the specification's scenario: `alice`, `admin`,
`superuser` in `corp`, queried also in `other-domain`. -/
theorem end_to_end_witness :
    ∃ m₁ m₂ : RuleManager,
      newRuleManager.AddRoleForUserInDomain "alice" "admin" "corp" = some (m₁, true) ∧
      m₁.AddRoleForUserInDomain "admin" "superuser" "corp" = some (m₂, true) ∧
      m₂.GetRolesForUserInDomain "alice" "corp" = some ["admin", "superuser"] ∧
      m₂.GetUsersForRoleInDomain "superuser" "corp" = some ["admin", "alice"] ∧
      m₂.GetRolesForUserInDomain "alice" "other-domain" = some [] :=
  end_to_end "alice" "admin" "superuser" "corp" "other-domain"
    (by decide) (by decide) (by decide) (by decide)

/-! ## Filtered query -/

theorem specMatches_of_all_empty (t : List String) (fi : Int) (fvs : List String)
    (h : ∀ v ∈ fvs, v = "") : specMatches t fi fvs := by
  intro i hi
  left
  have hget : fvs.getD i "" = fvs.get ⟨i, hi⟩ := by
    simp [List.getD_eq_getElem?_getD, List.getElem?_eq_getElem hi]
  rw [hget]
  exact h _ (List.get_mem fvs i hi)

/-- C13, refuted as stated. The `p` rule list holds the one-field tuple `a`;
with `fieldIndex = -1` and the one value `x` every tuple has at least
`fieldIndex + len(fieldValues) = 0` fields, yet `GetFilteredRule` reads
`rule[-1]` and fails, while `GetRule` returns the list. -/
theorem GetFilteredRule_counterexample :
    ∃ (m : Model) (ast : Assertion),
      newModel.Add "p" "p" ["a"] = some (m, true) ∧
      m.assertion "p" "p" = some ast ∧
      m.GetRule "p" "p" = some [["a"]] ∧
      (∀ t ∈ ast.Rule, (-1 : Int) + (["x"].length : Int) ≤ (t.length : Int)) ∧
      m.GetFilteredRule "p" "p" (-1) ["x"] = none :=
  ⟨_, _, rfl, rfl, by decide, by decide, by decide⟩

/-- C13, amended. When every tuple of the rule list has at least
`fieldIndex + len(fieldValues)` fields and no non-empty `fieldValues[i]` stands
at a negative position `fieldIndex + i` (as is the case whenever `fieldIndex`
is not negative), `GetFilteredRule` returns, and its result is the rule list
`GetRule` gives, filtered in order by the predicate "every value is empty or
equals the field at `fieldIndex + i`"; with no values or only empty ones the
result is the whole rule list. The method returns only that list: the model
is not changed. -/
theorem GetFilteredRule_correct (model : Model) (sec ptype : String) (fieldIndex : Int)
    (fieldValues : List String) (ast : Assertion)
    (h : model.assertion sec ptype = some ast)
    (hpos : ∀ i : Nat, i < fieldValues.length → fieldValues.getD i "" ≠ "" →
      0 ≤ fieldIndex + (i : Int))
    (hlen : ∀ t ∈ ast.Rule, fieldIndex + (fieldValues.length : Int) ≤ (t.length : Int)) :
    model.GetRule sec ptype = some ast.Rule ∧
    model.GetFilteredRule sec ptype fieldIndex fieldValues =
      some (ast.Rule.filter (fun t => decide (specMatches t fieldIndex fieldValues))) ∧
    ((∀ v ∈ fieldValues, v = "") →
      model.GetFilteredRule sec ptype fieldIndex fieldValues = some ast.Rule) := by
  have hsafe : ∀ r ∈ ast.Rule, ¬ readsOutside r fieldIndex fieldValues :=
    fun r hr => not_readsOutside_of_length r fieldIndex fieldValues hpos (hlen r hr)
  have heq := GetFilteredRule_eq model sec ptype fieldIndex fieldValues ast h hsafe
  refine ⟨by simp [Model.GetRule, h], heq, ?_⟩
  intro hall
  rw [heq]
  congr 1
  apply List.filter_eq_self.mpr
  intro t _
  simpa using specMatches_of_all_empty t fieldIndex fieldValues hall

/-- C13 amended, at a concrete input: the rules of subject `alice` with any
object and action `read`, and all rules for the filter of one wildcard. -/
theorem GetFilteredRule_correct_witness :
    threePolicies.GetRule "p" "p" =
      some [["alice", "data", "read"], ["bob", "data", "read"], ["alice", "log", "write"]] ∧
    threePolicies.GetFilteredRule "p" "p" 0 ["alice", "", "read"] =
      some [["alice", "data", "read"]] ∧
    threePolicies.GetFilteredRule "p" "p" 1 [""] =
      some [["alice", "data", "read"], ["bob", "data", "read"], ["alice", "log", "write"]] := by
  have h₁ := GetFilteredRule_correct threePolicies "p" "p" 0 ["alice", "", "read"]
    { Key := "p", Value := "sub, dom, obj, act",
      Tokens := ["p_sub", "p_dom", "p_obj", "p_act"],
      Rule := [["alice", "data", "read"], ["bob", "data", "read"], ["alice", "log", "write"]],
      RM := RMPtr.nil }
    (by decide) (fun i _ _ => by omega) (by decide)
  have h₂ := GetFilteredRule_correct threePolicies "p" "p" 1 [""]
    { Key := "p", Value := "sub, dom, obj, act",
      Tokens := ["p_sub", "p_dom", "p_obj", "p_act"],
      Rule := [["alice", "data", "read"], ["bob", "data", "read"], ["alice", "log", "write"]],
      RM := RMPtr.nil }
    (by decide) (fun i _ _ => by omega) (by decide)
  refine ⟨h₁.1, ?_, h₂.2.2 (by decide)⟩
  rw [h₁.2.1]
  decide

/-! ## Removal of one tuple -/

theorem removeIndex_none (rule : List String) (rules : List (List String)) (i : Nat)
    (h : rule ∉ rules) : removeIndex rule rules i = none := by
  induction rules generalizing i with
  | nil => rfl
  | cons r rest ih =>
    have hr : ArrayEquals rule r = false := by
      cases hb : ArrayEquals rule r
      · rfl
      · exact absurd ((ArrayEquals_iff _ _).mp hb) (fun he => h (by simp [he]))
    rw [removeIndex]
    simp only [hr, Bool.false_eq_true, if_false]
    exact ih (i + 1) (fun hm => h (List.mem_cons_of_mem _ hm))

theorem removeIndex_some (rule : List String) (rules : List (List String)) (i : Nat)
    (h : rule ∈ rules) :
    ∃ pre post, rules = pre ++ rule :: post ∧ rule ∉ pre ∧
      removeIndex rule rules i = some (i + pre.length) := by
  induction rules generalizing i with
  | nil => simp at h
  | cons r rest ih =>
    by_cases hr : rule = r
    · subst hr
      refine ⟨[], rest, rfl, by simp, ?_⟩
      rw [removeIndex]
      simp [(ArrayEquals_iff rule rule).mpr rfl]
    · have hb : ArrayEquals rule r = false := by
        cases hb : ArrayEquals rule r
        · rfl
        · exact absurd ((ArrayEquals_iff _ _).mp hb) hr
      have hmem : rule ∈ rest := by
        rcases List.mem_cons.mp h with h' | h'
        · exact absurd h' hr
        · exact h'
      obtain ⟨pre, post, heq, hpre, hidx⟩ := ih (i + 1) hmem
      refine ⟨r :: pre, post, by simp [heq], by simp [hr, hpre], ?_⟩
      rw [removeIndex]
      simp only [hb, Bool.false_eq_true, if_false, hidx, List.length_cons]
      congr 1
      omega

/-- C14. On a defined `(section, ptype)`, `Remove` returns true exactly when
`HasRule` holds for the tuple; in that case the new rule list is the old one
without the first tuple equal to it, the others in their original order, and
otherwise the model is unchanged. -/
theorem Remove_correct (model : Model) (sec ptype : String) (ast : Assertion)
    (T : List String) (h : model.assertion sec ptype = some ast) :
    ∃ (m₁ : Model) (b : Bool),
      model.HasRule sec ptype T = some b ∧
      model.Remove sec ptype T = some (m₁, b) ∧
      (b = true ↔ T ∈ ast.Rule) ∧
      (b = false → m₁ = model) ∧
      (b = true → ∃ pre post, ast.Rule = pre ++ T :: post ∧ T ∉ pre ∧
        m₁.GetRule sec ptype = some (pre ++ post)) := by
  by_cases hm : T ∈ ast.Rule
  · obtain ⟨pre, post, heq, hpre, hidx⟩ := removeIndex_some T ast.Rule 0 hm
    refine ⟨model.setRule sec ptype (pre ++ post), true, ?_, ?_, by simp [hm], by simp, ?_⟩
    · simp [HasRule_eq model sec ptype ast T h, hm]
    · simp only [Model.Remove, h, hidx]
      have hdrop : List.drop (pre.length + 1) pre = [] :=
        List.drop_eq_nil_of_le (Nat.le_succ _)
      simp [heq, List.take_append_eq_append_take, List.drop_append_eq_append_drop, hdrop]
    · intro _
      exact ⟨pre, post, heq, hpre, GetRule_setRule_same model sec ptype ast _ h⟩
  · refine ⟨model, false, ?_, ?_, by simp [hm], by simp, by simp⟩
    · simp [HasRule_eq model sec ptype ast T h, hm]
    · simp [Model.Remove, h, removeIndex_none T ast.Rule 0 hm]

/-- C14, at a concrete input: `Remove` of `bob, data, read` from three `p`
rules, and of a tuple that is not there. -/
theorem Remove_correct_witness :
    (threePolicies.Remove "p" "p" ["bob", "data", "read"]).map
        (fun r => (r.1.GetRule "p" "p", r.2)) =
      some (some [["alice", "data", "read"], ["alice", "log", "write"]], true) ∧
    threePolicies.Remove "p" "p" ["carol"] = some (threePolicies, false) ∧
    ∃ (m₁ : Model) (b : Bool),
      threePolicies.HasRule "p" "p" ["bob", "data", "read"] = some b ∧
      threePolicies.Remove "p" "p" ["bob", "data", "read"] = some (m₁, b) ∧
      (b = true ↔ ["bob", "data", "read"] ∈
        [["alice", "data", "read"], ["bob", "data", "read"], ["alice", "log", "write"]]) :=
  ⟨by decide, by decide,
    (Remove_correct threePolicies "p" "p"
      { Key := "p", Value := "sub, dom, obj, act",
        Tokens := ["p_sub", "p_dom", "p_obj", "p_act"],
        Rule := [["alice", "data", "read"], ["bob", "data", "read"], ["alice", "log", "write"]],
        RM := RMPtr.nil }
      ["bob", "data", "read"] (by decide)).imp
      (fun _ hm => hm.imp (fun _ hb => ⟨hb.1, hb.2.1, hb.2.2.1⟩))⟩

/-! ## Clearing the rules -/

theorem mapGet_clearRules (am : AssertionMap) (key : String) :
    mapGet key (clearRules am) = (mapGet key am).map (fun ast => { ast with Rule := [] }) := by
  induction am with
  | nil => rfl
  | cons e rest ih =>
    obtain ⟨k, v⟩ := e
    by_cases hk : k = key
    · simp [clearRules, mapGet, hk]
    · have ih' : mapGet key (List.map (fun e => (e.1, { e.2 with Rule := [] })) rest) =
          (mapGet key rest).map (fun ast => { ast with Rule := [] }) := ih
      simp [clearRules, mapGet, hk, ih']

theorem assertion_clearSection (model : Model) (s sec key : String) :
    (model.clearSection s).assertion sec key =
      if sec = s then (model.assertion sec key).map (fun ast => { ast with Rule := [] })
      else model.assertion sec key := by
  unfold Model.clearSection
  by_cases hs : sec = s
  · subst hs
    cases hg : mapGet sec model with
    | none => simp [Model.assertion, hg]
    | some am => simp [Model.assertion, hg, mapGet_mapSet_same, mapGet_clearRules]
  · cases hg : mapGet s model with
    | none => simp [hs]
    | some am => simp [Model.assertion, hs, mapGet_mapSet_other _ _ _ _ hs]

/-- C16. `Clear` empties the rule list of every assertion of the sections `p`
and `g` and changes nothing else: for every section and key the assertion
after `Clear` is the one before it, with the rule list emptied when the
section is `p` or `g`; `Key`, `Value`, `Tokens` and `RM` stay, the assertions
of the sections `r`, `e` and `m` stay whole, and no assertion appears or
disappears. -/
theorem Clear_correct (model : Model) (sec key : String) :
    model.Clear.assertion sec key =
      (model.assertion sec key).map
        (fun ast => if sec = "p" ∨ sec = "g" then { ast with Rule := [] } else ast) := by
  unfold Model.Clear
  rw [assertion_clearSection, assertion_clearSection]
  by_cases hg : sec = "g"
  · subst hg
    cases h : Model.assertion model "g" key <;> simp
  · by_cases hp : sec = "p"
    · subst hp
      cases h : Model.assertion model "p" key <;> simp
    · cases h : Model.assertion model sec key <;> simp [hg, hp]

/-- C16, at a concrete input: `Clear` on three `p` rules empties the `p` rule
list and keeps the definition of `p` and the assertions `r` and `m`. -/
theorem Clear_example :
    threePolicies.Clear.assertion "p" "p" =
      some { Key := "p", Value := "sub, dom, obj, act",
             Tokens := ["p_sub", "p_dom", "p_obj", "p_act"], Rule := [], RM := RMPtr.nil } ∧
    threePolicies.Clear.assertion "r" "r" = threePolicies.assertion "r" "r" ∧
    threePolicies.Clear.assertion "m" "m" = threePolicies.assertion "m" "m" := by
  decide

/-! ## Invariant I2 -/

/-- C20. For the grouping definition `_, _, _` (three placeholders),
`Model.buildRoleLinks(rm)` fails exactly when some `g` tuple has fewer than 3
fields; when none has, it returns and the resolver it leaves is `rm` after
`AddLink(t[0], t[1], t[2])` for each `g` tuple `t`, once each and in rule
order, with no other change to `rm`. -/
theorem buildRoleLinks_arity (model : Model) (ast : Assertion) (rm : RoleManager)
    (hg : mapGet "g" model = some [("g", ast)]) (hv : ast.Value = "_, _, _") :
    (model.buildRoleLinks rm = none ↔ ∃ t ∈ ast.Rule, t.length < 3) ∧
    ((∀ t ∈ ast.Rule, 3 ≤ t.length) →
      model.buildRoleLinks rm =
        some (mapSet "g" [("g", { ast with RM := RMPtr.rm })] model, replayLinks ast.Rule rm)) := by
  have hcount : stringsCount ast.Value = 3 := by
    rw [hv]
    decide
  constructor
  · constructor
    · intro hnone
      by_contra hno
      have hall : ∀ t ∈ ast.Rule, 3 ≤ t.length := by
        intro t ht
        by_contra hlt
        exact hno ⟨t, ht, Nat.lt_of_not_le hlt⟩
      rw [Model_buildRoleLinks_eq model ast rm hg hcount hall] at hnone
      exact Option.noConfusion hnone
    · exact Model_buildRoleLinks_short model ast rm hg hcount
  · exact Model_buildRoleLinks_eq model ast rm hg hcount

/-- C20, at a concrete input: the rebuild of two three-field `g` tuples adds
their two links in order, and a two-field tuple makes it fail. -/
theorem buildRoleLinks_arity_witness :
    ((newModel.setRule "g" "g" [["alice", "admin", "corp"], ["admin", "root", "corp"]]).buildRoleLinks
        (newRoleManager 10)).map Prod.snd =
      some { links := [Link.mk "alice" "admin" ["corp"], Link.mk "admin" "root" ["corp"]],
             maxHierarchyDepth := 10 } ∧
    (newModel.setRule "g" "g" [["alice", "admin", "corp"], ["admin", "root"]]).buildRoleLinks
        (newRoleManager 10) = none := by
  have h₁ := buildRoleLinks_arity
    (newModel.setRule "g" "g" [["alice", "admin", "corp"], ["admin", "root", "corp"]])
    { Key := "g", Value := "_, _, _", Tokens := [],
      Rule := [["alice", "admin", "corp"], ["admin", "root", "corp"]], RM := RMPtr.nil }
    (newRoleManager 10) (by decide) rfl
  have h₂ := buildRoleLinks_arity
    (newModel.setRule "g" "g" [["alice", "admin", "corp"], ["admin", "root"]])
    { Key := "g", Value := "_, _, _", Tokens := [],
      Rule := [["alice", "admin", "corp"], ["admin", "root"]], RM := RMPtr.nil }
    (newRoleManager 10) (by decide) rfl
  refine ⟨?_, h₂.1.mpr (by decide)⟩
  rw [h₁.2 (by decide)]
  decide

/-! ## The resolver mirrors the grouping rules -/

theorem regrouped_rm (m : RuleManager) (ast : Assertion) (rule : List (List String))
    (ha : m.autobuildRoleLinks = true) :
    (m.regrouped ast rule).rm = replayLinks rule (newRoleManager m.rm.maxHierarchyDepth) := by
  simp [RuleManager.regrouped, ha, RoleManager.Clear, newRoleManager]

theorem regrouped_mapGet_grouping (m : RuleManager) (ast : Assertion)
    (rule : List (List String)) (ha : m.autobuildRoleLinks = true) :
    mapGet "g" (m.regrouped ast rule).rules =
      some [("g", { ast with Rule := rule, RM := RMPtr.rm })] := by
  simp [RuleManager.regrouped, ha, mapGet_mapSet_same]

theorem DeleteRole_eq (m : RuleManager) (gast past : Assertion) (role : String)
    (hg : mapGet "g" m.rules = some [("g", gast)]) (hv : stringsCount gast.Value = 3)
    (hp : m.rules.assertion "p" "p" = some past)
    (hsafeg : ∀ r ∈ gast.Rule, ¬ readsOutside r 1 [role])
    (harity : ∀ t ∈ gast.Rule, ¬ specMatches t 1 [role] → 3 ≤ t.length)
    (hsafep : ∀ r ∈ past.Rule, ¬ readsOutside r 0 [role]) :
    m.DeleteRole role =
      some { m.regrouped gast (gast.Rule.filter (fun t => decide (¬ specMatches t 1 [role]))) with
        rules := (m.regrouped gast
            (gast.Rule.filter (fun t => decide (¬ specMatches t 1 [role])))).rules.setRule "p" "p"
          (past.Rule.filter (fun t => decide (¬ specMatches t 0 [role]))) } := by
  have hgeq := removeFilteredGroupingRule_eq m gast 1 [role] hg hv hsafeg harity
  have hp' := (regrouped_assertion_other m gast
    (gast.Rule.filter (fun t => decide (¬ specMatches t 1 [role]))) "p" "p" (by decide)).trans hp
  have hpeq := RemoveFilteredRule_eq _ "p" "p" 0 [role] past hp' hsafep
  simp only [RuleManager.DeleteRole, hgeq, RuleManager.removeFilteredRules,
    RuleManager.removeFilteredNamedRule, RuleManager.removeFilteredRule, hpeq]

theorem RuleManager_buildRoleLinks_sync (m₁ m₂ : RuleManager) (a : Assertion)
    (hg : mapGet "g" m₁.rules = some [("g", a)]) (hv : stringsCount a.Value = 3)
    (h : m₁.buildRoleLinks = some m₂) :
    mapGet "g" m₂.rules = some [("g", { a with RM := RMPtr.rm })] ∧
    m₂.rm = replayLinks a.Rule (newRoleManager m₁.rm.maxHierarchyDepth) := by
  unfold RuleManager.buildRoleLinks at h
  by_cases hall : ∀ t ∈ a.Rule, 3 ≤ t.length
  · rw [Model_buildRoleLinks_eq m₁.rules a m₁.rm.Clear hg hv hall] at h
    simp only [Option.some.injEq] at h
    rw [← h]
    exact ⟨mapGet_mapSet_same _ _ _, rfl⟩
  · have hshort : ∃ t ∈ a.Rule, t.length < 3 := by
      by_contra hno
      exact hall (fun t ht => Nat.le_of_not_lt (fun hlt => hno ⟨t, ht, hlt⟩))
    rw [Model_buildRoleLinks_short m₁.rules a m₁.rm.Clear hg hv hshort] at h
    exact Option.noConfusion h

theorem RemoveFilteredRule_some (model model' : Model) (sec ptype : String) (fi : Int)
    (fvs : List String) (b : Bool)
    (h : model.RemoveFilteredRule sec ptype fi fvs = some (model', b)) :
    ∃ tmp, model' = model.setRule sec ptype tmp := by
  cases ha : model.assertion sec ptype with
  | none => simp [Model.RemoveFilteredRule, ha] at h
  | some ast =>
    simp only [Model.RemoveFilteredRule, ha] at h
    cases hl : removeFilteredLoop fi fvs ast.Rule [] false with
    | none => simp [hl] at h
    | some r =>
      obtain ⟨tmp, res⟩ := r
      simp only [hl, Option.some.injEq, Prod.mk.injEq] at h
      exact ⟨tmp, h.1.symm⟩

theorem removeFilteredGroupingRule_sync (m m' : RuleManager) (ast : Assertion) (fi : Int)
    (fvs : List String) (b : Bool)
    (hg : mapGet "g" m.rules = some [("g", ast)]) (hv : stringsCount ast.Value = 3)
    (ha : m.autobuildRoleLinks = true)
    (h : m.removeFilteredGroupingRule fi fvs = some (m', b)) :
    ∃ ast' : Assertion, mapGet "g" m'.rules = some [("g", ast')] ∧
      m'.rm = replayLinks ast'.Rule (newRoleManager m.rm.maxHierarchyDepth) ∧
      mapGet "p" m'.rules = mapGet "p" m.rules := by
  unfold RuleManager.removeFilteredGroupingRule RuleManager.removeFilteredNamedGroupingRule
    RuleManager.removeFilteredRule at h
  cases hr : m.rules.RemoveFilteredRule "g" "g" fi fvs with
  | none =>
    simp [hr] at h
  | some r =>
    obtain ⟨rules, res⟩ := r
    obtain ⟨tmp, htmp⟩ := RemoveFilteredRule_some m.rules rules "g" "g" fi fvs res hr
    have hc : ({ m with rules := rules } : RuleManager).autobuildRoleLinks = true := ha
    simp only [hr] at h
    rw [if_pos hc] at h
    cases hb : ({ m with rules := rules } : RuleManager).buildRoleLinks with
    | none => simp [hb] at h
    | some m₂ =>
      simp only [hb, Option.some.injEq, Prod.mk.injEq] at h
      have hg' : mapGet "g" ({ m with rules := rules } : RuleManager).rules =
          some [("g", { ast with Rule := tmp })] := by
        simp only [htmp]
        rw [setRule_grouping m.rules ast tmp hg, mapGet_mapSet_same]
      have hsync := RuleManager_buildRoleLinks_sync _ m₂ _ hg' hv hb
      rw [← h.1]
      refine ⟨_, hsync.1, hsync.2, ?_⟩
      have hrules : m₂.rules = mapSet "g" [("g", { ast with Rule := tmp, RM := RMPtr.rm })]
          ({ m with rules := rules } : RuleManager).rules := by
        have hb' := hb
        unfold RuleManager.buildRoleLinks at hb'
        cases hm : ({ m with rules := rules } : RuleManager).rules.buildRoleLinks
            ({ m with rules := rules } : RuleManager).rm.Clear with
        | none => simp [hm] at hb'
        | some q =>
          obtain ⟨rules₂, rm₂⟩ := q
          simp only [hm, Option.some.injEq] at hb'
          unfold Model.buildRoleLinks at hm
          simp only [hg', buildSectionLinks] at hm
          cases hab : Assertion.buildRoleLinks { ast with Rule := tmp }
              ({ m with rules := rules } : RuleManager).rm.Clear with
          | none => simp [hab] at hm
          | some q' =>
            obtain ⟨a₂, rm₃⟩ := q'
            simp only [hab, Option.some.injEq, Prod.mk.injEq] at hm
            unfold Assertion.buildRoleLinks at hab
            cases hll : buildLinksLoop (stringsCount ast.Value) tmp
                ({ m with rules := rules } : RuleManager).rm.Clear with
            | none => simp [hll] at hab
            | some rm₄ =>
              simp only [hll, Option.some.injEq, Prod.mk.injEq] at hab
              rw [← hb', ← hm.1, ← hab.1]
      rw [hrules, mapGet_mapSet_other _ _ _ _ (by decide)]
      simp only [htmp]
      exact mapGet_setRule_other m.rules "g" "g" "p" tmp (by decide)

theorem AddRoleForUserInDomain_sync (m m' : RuleManager) (ast : Assertion)
    (user role domain : String) (b : Bool)
    (hg : mapGet "g" m.rules = some [("g", ast)]) (hv : stringsCount ast.Value = 3)
    (ha : m.autobuildRoleLinks = true)
    (h : m.AddRoleForUserInDomain user role domain = some (m', b)) :
    Mirrors m.rm.maxHierarchyDepth m' := by
  unfold RuleManager.AddRoleForUserInDomain RuleManager.addGroupingRule
    RuleManager.addNamedGroupingRule RuleManager.addRule at h
  simp only [paramStrings, Param.asString] at h
  rw [Add_eq m.rules "g" "g" ast _ (assertion_grouping m.rules ast hg)] at h
  have key : ∀ (rules : Model) (a : Assertion) (bb : Bool),
      mapGet "g" rules = some [("g", a)] → stringsCount a.Value = 3 →
      (if ({ m with rules := rules } : RuleManager).autobuildRoleLinks = true then
          match ({ m with rules := rules } : RuleManager).buildRoleLinks with
          | none => none
          | some m₂ => some (m₂, bb)
        else some (({ m with rules := rules } : RuleManager), bb)) = some (m', b) →
      Mirrors m.rm.maxHierarchyDepth m' := by
    intro rules a bb hga hva hres
    have hc : ({ m with rules := rules } : RuleManager).autobuildRoleLinks = true := ha
    rw [if_pos hc] at hres
    cases hb : ({ m with rules := rules } : RuleManager).buildRoleLinks with
    | none => simp [hb] at hres
    | some m₂ =>
      simp only [hb, Option.some.injEq, Prod.mk.injEq] at hres
      have hsync := RuleManager_buildRoleLinks_sync _ m₂ a hga hva hb
      rw [← hres.1]
      exact ⟨_, hsync.1, hsync.2⟩
  by_cases hm : [user, role, domain] ∈ ast.Rule
  · simp only [hm, if_true] at h
    exact key m.rules ast false hg hv h
  · simp only [hm, if_false] at h
    refine key (m.rules.setRule "g" "g" (ast.Rule ++ [[user, role, domain]]))
      { ast with Rule := ast.Rule ++ [[user, role, domain]] } true ?_ hv h
    rw [setRule_grouping m.rules ast _ hg, mapGet_mapSet_same]

theorem DeleteRole_sync (m m' : RuleManager) (ast : Assertion) (role : String)
    (hg : mapGet "g" m.rules = some [("g", ast)]) (hv : stringsCount ast.Value = 3)
    (ha : m.autobuildRoleLinks = true) (h : m.DeleteRole role = some m') :
    Mirrors m.rm.maxHierarchyDepth m' := by
  unfold RuleManager.DeleteRole at h
  cases hr : m.removeFilteredGroupingRule 1 [role] with
  | none => simp [hr] at h
  | some r =>
    obtain ⟨m₁, b₁⟩ := r
    obtain ⟨ast', hg', hrm, _⟩ := removeFilteredGroupingRule_sync m m₁ ast 1 [role] b₁ hg hv ha hr
    simp only [hr] at h
    unfold RuleManager.removeFilteredRules RuleManager.removeFilteredNamedRule
      RuleManager.removeFilteredRule at h
    cases hp : m₁.rules.RemoveFilteredRule "p" "p" 0 [role] with
    | none => simp [hp] at h
    | some q =>
      obtain ⟨rules₂, b₂⟩ := q
      obtain ⟨tmp, htmp⟩ := RemoveFilteredRule_some m₁.rules rules₂ "p" "p" 0 [role] b₂ hp
      simp only [hp, Option.some.injEq] at h
      rw [← h]
      refine ⟨ast', ?_, hrm⟩
      simp only [htmp]
      rw [mapGet_setRule_other m₁.rules "p" "p" "g" tmp (by decide)]
      exact hg'

/-- C19. No stale edges: with the rebuild automatic and the default grouping
definition, whenever `AddRoleForUserInDomain`, `DeleteUser` or `DeleteRole`
returns, the resolver it leaves is the one reached from an empty resolver by
`AddLink(t[0], t[1], t[2])` for each tuple `t` then in `g`, in rule order; and
when every `g` tuple has at least 3 fields the three calls do return
(`DeleteRole` given a defined `p` assertion whose tuples have a field 0). -/
theorem no_stale_edges (m : RuleManager) (ast : Assertion) (user role domain : String)
    (hg : mapGet "g" m.rules = some [("g", ast)]) (hv : stringsCount ast.Value = 3)
    (ha : m.autobuildRoleLinks = true) :
    (∀ m' b, m.AddRoleForUserInDomain user role domain = some (m', b) →
      Mirrors m.rm.maxHierarchyDepth m') ∧
    (∀ m' b, m.DeleteUser user = some (m', b) → Mirrors m.rm.maxHierarchyDepth m') ∧
    (∀ m', m.DeleteRole role = some m' → Mirrors m.rm.maxHierarchyDepth m') ∧
    ((∀ t ∈ ast.Rule, 3 ≤ t.length) →
      (∃ m' b, m.AddRoleForUserInDomain user role domain = some (m', b)) ∧
      (∃ m' b, m.DeleteUser user = some (m', b)) ∧
      (∀ past : Assertion, m.rules.assertion "p" "p" = some past →
        (∀ t ∈ past.Rule, 1 ≤ t.length) → ∃ m', m.DeleteRole role = some m')) := by
  refine ⟨fun m' b h => AddRoleForUserInDomain_sync m m' ast user role domain b hg hv ha h,
    fun m' b h => ?_, fun m' h => DeleteRole_sync m m' ast role hg hv ha h, ?_⟩
  · obtain ⟨ast', hg', hrm, _⟩ :=
      removeFilteredGroupingRule_sync m m' ast 0 [user] b hg hv ha h
    exact ⟨ast', hg', hrm⟩
  · intro harity
    refine ⟨?_, ?_, ?_⟩
    · have heq := AddRoleForUserInDomain_eq m ast user role domain hg hv harity
      by_cases hm : [user, role, domain] ∈ ast.Rule
      · simp only [hm, if_true] at heq
        exact ⟨_, _, heq⟩
      · simp only [hm, if_false] at heq
        exact ⟨_, _, heq⟩
    · have hsafe : ∀ r ∈ ast.Rule, ¬ readsOutside r 0 [user] := fun r hr =>
        not_readsOutside_zero r user (Nat.le_trans (by decide) (harity r hr))
      exact ⟨_, _, removeFilteredGroupingRule_eq m ast 0 [user] hg hv hsafe
        (fun t ht _ => harity t ht)⟩
    · intro past hp hp1
      have hsafeg : ∀ r ∈ ast.Rule, ¬ readsOutside r 1 [role] := fun r hr =>
        not_readsOutside_one r role (Nat.le_trans (by decide) (harity r hr))
      have hsafep : ∀ r ∈ past.Rule, ¬ readsOutside r 0 [role] := fun r hr =>
        not_readsOutside_zero r role (hp1 r hr)
      exact ⟨_, DeleteRole_eq m ast past role hg hv hp hsafeg (fun t ht _ => harity t ht) hsafep⟩

/-- C19, at a concrete input: after `DeleteUser("alice")` on the grants
`alice, admin, corp` and `bob, admin, corp` the resolver holds the one link of
`bob`, and no link of `alice`. -/
theorem no_stale_edges_witness :
    ((managerWith [["alice", "admin", "corp"], ["bob", "admin", "corp"]] []).DeleteUser
        "alice").map (fun r => r.1.rm) =
      some { links := [Link.mk "bob" "admin" ["corp"]], maxHierarchyDepth := 10 } ∧
    ∀ m' b,
      (managerWith [["alice", "admin", "corp"], ["bob", "admin", "corp"]] []).DeleteUser
        "alice" = some (m', b) → Mirrors 10 m' :=
  ⟨by decide,
    (no_stale_edges (managerWith [["alice", "admin", "corp"], ["bob", "admin", "corp"]] [])
      { Key := "g", Value := "_, _, _", Tokens := [],
        Rule := [["alice", "admin", "corp"], ["bob", "admin", "corp"]], RM := RMPtr.nil }
      "alice" "admin" "corp" (by decide) (by decide) (by decide)).2.1⟩

/-! ## The values of one field -/

theorem mem_ArrayRemoveDuplicates (s : List String) (v : String) :
    v ∈ ArrayRemoveDuplicates s ↔ v ∈ s := by
  induction s with
  | nil => simp [ArrayRemoveDuplicates]
  | cons x xs ih =>
    by_cases hv : v = x
    · simp [ArrayRemoveDuplicates, hv]
    · simp [ArrayRemoveDuplicates, List.mem_filter, hv, ih]

theorem nodup_ArrayRemoveDuplicates (s : List String) : (ArrayRemoveDuplicates s).Nodup := by
  induction s with
  | nil => simp [ArrayRemoveDuplicates]
  | cons x xs ih =>
    rw [ArrayRemoveDuplicates, List.nodup_cons]
    exact ⟨by simp [List.mem_filter], ih.filter _⟩

theorem valuesLoop_eq (fi : Int) (rules : List (List String)) (values : List String)
    (h : ∀ t ∈ rules, goIndex t fi ≠ none) :
    ∃ found, valuesLoop fi rules values = some (values ++ found) ∧
      ∀ v, v ∈ found ↔ ∃ t ∈ rules, goIndex t fi = some v := by
  induction rules generalizing values with
  | nil => exact ⟨[], by simp [valuesLoop], by simp⟩
  | cons r rest ih =>
    have hr := h r (List.mem_cons_self _ _)
    cases hx : goIndex r fi with
    | none => exact absurd hx hr
    | some x =>
      obtain ⟨found, hf, hmem⟩ := ih (values ++ [x])
        (fun t ht => h t (List.mem_cons_of_mem _ ht))
      refine ⟨x :: found, ?_, ?_⟩
      · rw [valuesLoop, hx]
        simpa using hf
      · intro v
        simp only [List.mem_cons, hmem, exists_eq_or_imp, hx, Option.some.injEq]
        constructor
        · rintro (h1 | h1)
          · exact Or.inl h1.symm
          · exact Or.inr h1
        · rintro (h1 | h1)
          · exact Or.inl h1.symm
          · exact Or.inr h1

/-- C15. When every `g` tuple has at least 2 fields, `GetAllRoles()` returns a
list with no repeated element whose elements are exactly the field-1 values of
the `g` tuples. -/
theorem GetAllRoles_correct (m : RuleManager) (ast : Assertion)
    (hg : m.rules.assertion "g" "g" = some ast) (h2 : ∀ t ∈ ast.Rule, 2 ≤ t.length) :
    ∃ roles : List String,
      m.GetAllRoles = some roles ∧ roles.Nodup ∧
      ∀ v, v ∈ roles ↔ ∃ t ∈ ast.Rule, t.get? 1 = some v := by
  obtain ⟨found, hf, hmem⟩ := valuesLoop_eq 1 ast.Rule [] (fun t ht hn => by
    rw [goIndex_one, List.get?_eq_none] at hn
    have := h2 t ht
    omega)
  simp only [goIndex_one] at hmem
  refine ⟨ArrayRemoveDuplicates found, ?_, nodup_ArrayRemoveDuplicates found, ?_⟩
  · simp only [RuleManager.GetAllRoles, RuleManager.getAllNamedRoles,
      Model.GetValuesForFieldInRule, hg, hf, List.nil_append]
  · intro v
    rw [mem_ArrayRemoveDuplicates, hmem]

/-- C15, at a concrete input: the roles of the four grants of
`TestRuleManager` are `master` and `fan`, once each. -/
theorem GetAllRoles_correct_witness :
    (managerWith [["Bruce Lee", "master", "Kung Fu"], ["YIP Man", "master", "Kung Fu"],
        ["Peter", "fan", "Kung Fu"], ["Tom", "fan", "Kung Fu"]] []).GetAllRoles =
      some ["master", "fan"] ∧
    ∃ roles : List String,
      (managerWith [["Bruce Lee", "master", "Kung Fu"], ["YIP Man", "master", "Kung Fu"],
        ["Peter", "fan", "Kung Fu"], ["Tom", "fan", "Kung Fu"]] []).GetAllRoles = some roles ∧
      roles.Nodup :=
  ⟨by decide,
    (GetAllRoles_correct
      (managerWith [["Bruce Lee", "master", "Kung Fu"], ["YIP Man", "master", "Kung Fu"],
        ["Peter", "fan", "Kung Fu"], ["Tom", "fan", "Kung Fu"]] [])
      { Key := "g", Value := "_, _, _", Tokens := [],
        Rule := [["Bruce Lee", "master", "Kung Fu"], ["YIP Man", "master", "Kung Fu"],
          ["Peter", "fan", "Kung Fu"], ["Tom", "fan", "Kung Fu"]], RM := RMPtr.nil }
      (by decide) (by decide)).imp (fun _ h => ⟨h.1, h.2.1⟩)⟩

/-! ## Domain isolation -/

theorem parentsOf_AddLink_other (rm : RoleManager) (c p : String) (d d' : List String)
    (hd : d ≠ d') (x : String) : (rm.AddLink c p d).parentsOf d' x = rm.parentsOf d' x := by
  unfold RoleManager.AddLink RoleManager.parentsOf
  split
  · rfl
  · simp [List.filter_append, hd]

theorem childrenOf_AddLink_other (rm : RoleManager) (c p : String) (d d' : List String)
    (hd : d ≠ d') (x : String) : (rm.AddLink c p d).childrenOf d' x = rm.childrenOf d' x := by
  unfold RoleManager.AddLink RoleManager.childrenOf
  split
  · rfl
  · simp [List.filter_append, hd]

theorem GetRoles_AddLink_other (rm : RoleManager) (c p : String) (d d' : List String)
    (hd : d ≠ d') (x : String) : (rm.AddLink c p d).GetRoles x d' = rm.GetRoles x d' := by
  unfold RoleManager.GetRoles
  have hf : (rm.AddLink c p d).parentsOf d' = rm.parentsOf d' :=
    funext (parentsOf_AddLink_other rm c p d d' hd)
  rw [hf, AddLink_depth]

theorem GetUsers_AddLink_other (rm : RoleManager) (c p : String) (d d' : List String)
    (hd : d ≠ d') (x : String) : (rm.AddLink c p d).GetUsers x d' = rm.GetUsers x d' := by
  unfold RoleManager.GetUsers
  have hf : (rm.AddLink c p d).childrenOf d' = rm.childrenOf d' :=
    funext (childrenOf_AddLink_other rm c p d d' hd)
  rw [hf, AddLink_depth]

theorem replayLinks_append_one (rules : List (List String)) (t : List String)
    (rm : RoleManager) :
    replayLinks (rules ++ [t]) rm =
      (replayLinks rules rm).AddLink (t.getD 0 "") (t.getD 1 "") [t.getD 2 ""] := by
  simp [replayLinks, List.foldl_append]

/-- C11, refuted as stated. On the manager `newRuleManager()` returns, the
role query for `x` in `D2` fails before the grant `a, b, D1` and returns the
empty list after it. And when the line `g, a, b, D2` was loaded into the model
after a first grant, with no rebuild, the grant `c, d, D1` makes the role
query for `a` in `D2` change from empty to `b`. -/
theorem domain_isolation_counterexample :
    (newRuleManager.GetRolesForUserInDomain "x" "D2",
      (newRuleManager.AddRoleForUserInDomain "a" "b" "D1").map
        (fun r => r.1.GetRolesForUserInDomain "x" "D2")) = (none, some (some [])) ∧
    (((newRuleManager.AddRoleForUserInDomain "x" "y" "D1").bind
        (fun r => r.1.loaded ["g, a, b, D2"])).map
      (fun m => (m.GetRolesForUserInDomain "a" "D2",
        (m.AddRoleForUserInDomain "c" "d" "D1").map
          (fun r => r.1.GetRolesForUserInDomain "a" "D2")))) =
      some (some [], some (some ["b"])) := by
  constructor <;> decide

theorem groupingRM_of_attached (m : RuleManager) (ast : Assertion)
    (hg : mapGet "g" m.rules = some [("g", ast)]) (hrm : ast.RM = RMPtr.rm) :
    m.groupingRM = some m.rm := by
  simp [RuleManager.groupingRM, assertion_grouping m.rules ast hg, hrm]

theorem regrouped_groupingRM_attached (m : RuleManager) (ast : Assertion)
    (rule : List (List String)) (hrm : ast.RM = RMPtr.rm) :
    (m.regrouped ast rule).groupingRM = some (m.regrouped ast rule).rm := by
  unfold RuleManager.regrouped
  by_cases ha : m.autobuildRoleLinks = true
  · simp [ha, RuleManager.groupingRM, Model.assertion, mapGet_mapSet_same, mapGet]
  · simp [ha, RuleManager.groupingRM, Model.assertion, mapGet_mapSet_same, mapGet, hrm]

/-- C11, amended. Domain isolation: in a manager whose `g` assertion points to
the resolver, whose resolver mirrors the `g` tuples (as after any grouping
mutation) and whose `g` tuples have at least 3 fields, for `D1` different from
`D2` the grant `a, b, D1` returns and leaves the role query and the user query
of every `x` in `D2` as they were. And on a new manager the grant `a, b, D1`
returns, and afterwards `a` has no role in `D2`. -/
theorem domain_isolation (m : RuleManager) (ast : Assertion) (a b D1 D2 : String)
    (hD : D1 ≠ D2)
    (hg : mapGet "g" m.rules = some [("g", ast)]) (hv : stringsCount ast.Value = 3)
    (harity : ∀ t ∈ ast.Rule, 3 ≤ t.length) (hrm : ast.RM = RMPtr.rm)
    (hsync : m.rm = replayLinks ast.Rule (newRoleManager m.rm.maxHierarchyDepth)) :
    (∃ (m' : RuleManager) (added : Bool),
      m.AddRoleForUserInDomain a b D1 = some (m', added) ∧
      ∀ x, m'.GetRolesForUserInDomain x D2 = m.GetRolesForUserInDomain x D2 ∧
        m'.GetUsersForRoleInDomain x D2 = m.GetUsersForRoleInDomain x D2) ∧
    (∃ m' : RuleManager,
      newRuleManager.AddRoleForUserInDomain a b D1 = some (m', true) ∧
      m'.GetRolesForUserInDomain a D2 = some []) := by
  have hD' : [D1] ≠ [D2] := fun h => hD (List.head_eq_of_cons_eq h)
  constructor
  · have heq := AddRoleForUserInDomain_eq m ast a b D1 hg hv harity
    have hbefore := groupingRM_of_attached m ast hg hrm
    have key : ∀ rule : List (List String),
        (rule = ast.Rule ∨ rule = ast.Rule ++ [[a, b, D1]]) →
        ∀ x, (m.regrouped ast rule).GetRolesForUserInDomain x D2 =
            m.GetRolesForUserInDomain x D2 ∧
          (m.regrouped ast rule).GetUsersForRoleInDomain x D2 =
            m.GetUsersForRoleInDomain x D2 := by
      intro rule hrule x
      simp only [RuleManager.GetRolesForUserInDomain, RuleManager.GetUsersForRoleInDomain,
        regrouped_groupingRM_attached m ast rule hrm, hbefore, Option.map_some']
      by_cases ha : m.autobuildRoleLinks = true
      · have hrm' : (m.regrouped ast rule).rm =
            replayLinks rule (newRoleManager m.rm.maxHierarchyDepth) := regrouped_rm m ast rule ha
        rcases hrule with h | h
        · rw [hrm', h, ← hsync]
          exact ⟨rfl, rfl⟩
        · rw [hrm', h, replayLinks_append_one, ← hsync]
          simp only [List.getD_cons_zero, List.getD_cons_succ]
          rw [GetRoles_AddLink_other m.rm a b [D1] [D2] hD' x,
            GetUsers_AddLink_other m.rm a b [D1] [D2] hD' x]
          exact ⟨rfl, rfl⟩
      · have hrm' : (m.regrouped ast rule).rm = m.rm := by
          simp [RuleManager.regrouped, ha]
        rw [hrm']
        exact ⟨rfl, rfl⟩
    by_cases hm : [a, b, D1] ∈ ast.Rule
    · simp only [hm, if_true] at heq
      exact ⟨_, _, heq, key _ (Or.inl rfl)⟩
    · simp only [hm, if_false] at heq
      exact ⟨_, _, heq, key _ (Or.inr rfl)⟩
  · let ast₀ : Assertion :=
      { Key := "g", Value := "_, _, _", Tokens := [], Rule := [], RM := RMPtr.nil }
    have hg₀ : mapGet "g" newRuleManager.rules = some [("g", ast₀)] := by decide
    have h₁ := AddRoleForUserInDomain_eq newRuleManager ast₀ a b D1 hg₀ (by decide)
      (by simp [ast₀])
    have hnil : ([a, b, D1] ∈ ast₀.Rule) = False := by simp [ast₀]
    simp only [hnil, if_false] at h₁
    refine ⟨_, h₁, ?_⟩
    have ha₀ : newRuleManager.autobuildRoleLinks = true := rfl
    simp only [RuleManager.GetRolesForUserInDomain,
      regrouped_groupingRM newRuleManager ast₀ _ ha₀]
    simp [ast₀, replayLinks, RoleManager.AddLink, RoleManager.Clear, RoleManager.GetRoles,
      RoleManager.parentsOf, bfs, discover, newRuleManager, newRoleManager, hD]

/-- C11 amended, at a concrete input: after the grant `alice, admin, corp`,
the grant `bob, root, lab` leaves the queries in `corp` as they were. -/
theorem domain_isolation_witness :
    (∃ (m' : RuleManager) (added : Bool),
      (newRuleManager.regrouped
          { Key := "g", Value := "_, _, _", Tokens := [], Rule := [], RM := RMPtr.nil }
          [["alice", "admin", "corp"]]).AddRoleForUserInDomain "bob" "root" "lab" =
        some (m', added) ∧
      ∀ x, m'.GetRolesForUserInDomain x "corp" =
          (newRuleManager.regrouped
            { Key := "g", Value := "_, _, _", Tokens := [], Rule := [], RM := RMPtr.nil }
            [["alice", "admin", "corp"]]).GetRolesForUserInDomain x "corp" ∧
        m'.GetUsersForRoleInDomain x "corp" =
          (newRuleManager.regrouped
            { Key := "g", Value := "_, _, _", Tokens := [], Rule := [], RM := RMPtr.nil }
            [["alice", "admin", "corp"]]).GetUsersForRoleInDomain x "corp") ∧
    (∃ m' : RuleManager,
      newRuleManager.AddRoleForUserInDomain "bob" "root" "lab" = some (m', true) ∧
      m'.GetRolesForUserInDomain "bob" "corp" = some []) :=
  domain_isolation
    (newRuleManager.regrouped
      { Key := "g", Value := "_, _, _", Tokens := [], Rule := [], RM := RMPtr.nil }
      [["alice", "admin", "corp"]])
    { Key := "g", Value := "_, _, _", Tokens := [], Rule := [["alice", "admin", "corp"]],
      RM := RMPtr.rm }
    "bob" "root" "lab" "corp" (by decide) (by decide) (by decide) (by decide) rfl (by decide)

/-! ## Cycles -/

theorem cycle_at_depth (a b d : String) (maxHierarchyDepth : Nat) (hab : a ≠ b)
    (hdepth : 1 ≤ maxHierarchyDepth) :
    ∃ m₁ m₂ : RuleManager,
      (newRuleManagerWithDepth maxHierarchyDepth).AddRoleForUserInDomain a b d =
        some (m₁, true) ∧
      m₁.AddRoleForUserInDomain b a d = some (m₂, true) ∧
      m₂.GetRolesForUserInDomain a d = some [b] := by
  obtain ⟨k, rfl⟩ : ∃ k, maxHierarchyDepth = k + 1 := ⟨maxHierarchyDepth - 1, by omega⟩
  let ast₀ : Assertion :=
    { Key := "g", Value := "_, _, _", Tokens := [], Rule := [], RM := RMPtr.nil }
  let ast₁ : Assertion := { ast₀ with Rule := [[a, b, d]], RM := RMPtr.rm }
  have hg₀ : mapGet "g" (newRuleManagerWithDepth (k + 1)).rules = some [("g", ast₀)] := by
    have : mapGet "g" newRuleManager.rules = some [("g", ast₀)] := by decide
    exact this
  have hv₀ : stringsCount ast₀.Value = 3 := by decide
  have ha₀ : (newRuleManagerWithDepth (k + 1)).autobuildRoleLinks = true := rfl
  have h₁ := AddRoleForUserInDomain_eq (newRuleManagerWithDepth (k + 1)) ast₀ a b d hg₀ hv₀
    (by simp [ast₀])
  have hnil : ([a, b, d] ∈ ast₀.Rule) = False := by simp [ast₀]
  simp only [hnil, if_false] at h₁
  have hg₁ : mapGet "g"
      ((newRuleManagerWithDepth (k + 1)).regrouped ast₀ (ast₀.Rule ++ [[a, b, d]])).rules
      = some [("g", ast₁)] := by
    simp [RuleManager.regrouped, ha₀, mapGet_mapSet_same, ast₁, ast₀]
  have ha₁ : ((newRuleManagerWithDepth (k + 1)).regrouped ast₀
      (ast₀.Rule ++ [[a, b, d]])).autobuildRoleLinks = true := by
    rw [regrouped_autobuild]
    rfl
  have h₂ := AddRoleForUserInDomain_eq _ ast₁ b a d hg₁ hv₀ (by simp [ast₁])
  have hnot : ([b, a, d] ∈ ast₁.Rule) = False := by
    simp [ast₁, Ne.symm hab]
  simp only [hnot, if_false] at h₂
  refine ⟨_, _, h₁, h₂, ?_⟩
  simp only [RuleManager.GetRolesForUserInDomain, regrouped_groupingRM _ ast₁ _ ha₁]
  cases k with
  | zero =>
    simp [ast₁, ast₀, replayLinks, RoleManager.AddLink, RoleManager.Clear, RoleManager.GetRoles,
      RoleManager.parentsOf, bfs, discover, RuleManager.regrouped, ha₀,
      newRuleManagerWithDepth, newRuleManager, newRoleManager, hab, Ne.symm hab]
  | succ k =>
    simp [ast₁, ast₀, replayLinks, RoleManager.AddLink, RoleManager.Clear, RoleManager.GetRoles,
      RoleManager.parentsOf, bfs, discover, RuleManager.regrouped, ha₀,
      newRuleManagerWithDepth, newRuleManager, newRoleManager, hab, Ne.symm hab]

/-- A cycle with a depth bound other than the 10 of `newRuleManager`: with the
bound 1 the query still returns `bob`; with the bound 0, which no constructor
of the package passes, the traversal makes no hop and the result is empty. -/
theorem cycle_depth_example :
    (((newRuleManagerWithDepth 1).AddRoleForUserInDomain "alice" "bob" "corp").bind
        (fun r => r.1.AddRoleForUserInDomain "bob" "alice" "corp")).map
      (fun r => r.1.GetRolesForUserInDomain "alice" "corp") = some (some ["bob"]) ∧
    (((newRuleManagerWithDepth 0).AddRoleForUserInDomain "alice" "bob" "corp").bind
        (fun r => r.1.AddRoleForUserInDomain "bob" "alice" "corp")).map
      (fun r => r.1.GetRolesForUserInDomain "alice" "corp") = some (some []) := by
  constructor <;> decide

/-- C12. Cycle termination: for distinct `a`, `b` and every domain `d`, on the
manager `newRuleManager()` returns, whose resolver has the depth bound 10 that
the constructor passes, the grants `a, b, d` and `b, a, d` both return true,
and afterwards the role query for `a` in `d` returns, with exactly `b` as its
result: the cycle leads back to `a`, which is not listed. -/
theorem cycle_terminates (a b d : String) (hab : a ≠ b) :
    ∃ m₁ m₂ : RuleManager,
      newRuleManager.AddRoleForUserInDomain a b d = some (m₁, true) ∧
      m₁.AddRoleForUserInDomain b a d = some (m₂, true) ∧
      m₂.GetRolesForUserInDomain a d = some [b] :=
  cycle_at_depth a b d 10 hab (by decide)

/-- C12, at a concrete input: the cycle `alice, bob` in `corp`. -/
theorem cycle_terminates_witness :
    ∃ m₁ m₂ : RuleManager,
      newRuleManager.AddRoleForUserInDomain "alice" "bob" "corp" = some (m₁, true) ∧
      m₁.AddRoleForUserInDomain "bob" "alice" "corp" = some (m₂, true) ∧
      m₂.GetRolesForUserInDomain "alice" "corp" = some ["bob"] :=
  cycle_terminates "alice" "bob" "corp" (by decide)

/-! ## Role membership -/

theorem hasRoleLoop_eq (role : String) (roles : List String) :
    hasRoleLoop role roles = decide (role ∈ roles) := by
  induction roles with
  | nil => simp [hasRoleLoop]
  | cons r rest ih =>
    by_cases h : r = role
    · simp [hasRoleLoop, h]
    · have h' : ¬ role = r := fun e => h e.symm
      simp [hasRoleLoop, h, h', ih]

/-- C17, refuted on the code. `HasRoleForUserInDomain` passes the two
arguments `name, domain` to `GetRolesForUser`, a method of one parameter: the
call is no call of it and the method gives no result, for any manager and
arguments. `HasRoleForUser` does what the claim says: it returns whether
`role` is an element of `GetRolesForUser(name)`. -/
theorem HasRoleForUser_spec (m : RuleManager) (name domain role : String) :
    m.HasRoleForUserInDomain name domain role = none ∧
    m.HasRoleForUser name role =
      (m.GetRolesForUser name).map (fun roles => decide (role ∈ roles)) := by
  constructor
  · rfl
  · unfold RuleManager.HasRoleForUser
    cases m.GetRolesForUser name with
    | none => rfl
    | some roles => simp [hasRoleLoop_eq]

/-! ## The wrapper of the memory manager -/

theorem RbacManager_Delete_none {σ Policy Policies Request Err : Type}
    (lib : MemoryManager σ Policy Policies Request Err) (fuel : Nat) (m : RbacManager σ)
    (id : String) : RbacManager.Delete lib fuel m id = none := by
  induction fuel with
  | zero => rfl
  | succ n ih => exact ih

theorem RbacManager_FindRequestCandidates_none {σ Policy Policies Request Err : Type}
    (lib : MemoryManager σ Policy Policies Request Err) (fuel : Nat) (m : RbacManager σ)
    (r : Request) : RbacManager.FindRequestCandidates lib fuel m r = none := by
  induction fuel with
  | zero => rfl
  | succ n ih => exact ih

/-- C18, refuted on the code. `Update`, `GetAll`, `Create` and `Get` return
what the same operation of the wrapped memory manager returns. `Delete` and
`FindRequestCandidates` call themselves and never reach the memory manager:
whatever the depth allowed to the calls, they give no result. -/
theorem RbacManager_delegation {σ Policy Policies Request Err : Type}
    (lib : MemoryManager σ Policy Policies Request Err) (m : RbacManager σ)
    (policy : Policy) (limit offset : Int) (id : String) (r : Request) :
    (RbacManager.Update lib m policy).map Prod.fst = some (lib.Update policy m.memory).1 ∧
    (RbacManager.GetAll lib m limit offset).map Prod.fst =
      some (lib.GetAll limit offset m.memory).1 ∧
    (RbacManager.Create lib m policy).map Prod.fst = some (lib.Create policy m.memory).1 ∧
    (RbacManager.Get lib m id).map Prod.fst = some (lib.Get id m.memory).1 ∧
    (∀ fuel, RbacManager.Delete lib fuel m id = none) ∧
    (∀ fuel, RbacManager.FindRequestCandidates lib fuel m r = none) :=
  ⟨rfl, rfl, rfl, rfl, fun fuel => RbacManager_Delete_none lib fuel m id,
    fun fuel => RbacManager_FindRequestCandidates_none lib fuel m r⟩

/-- C18, at a concrete input: on a memory manager that holds the policy `1`,
`Get("1")` returns it, and `Delete("1")` gives no result within 1000 nested
calls while the memory manager's own `Delete` would remove the policy. -/
theorem RbacManager_Delete_example :
    (RbacManager.Get listMemory { memory := ["1"] } "1").map Prod.fst = some ("1", "") ∧
    RbacManager.Delete listMemory 1000 { memory := ["1"] } "1" = none ∧
    listMemory.Delete "1" ["1"] = ("", []) :=
  ⟨by decide, RbacManager_Delete_none listMemory 1000 _ "1", by decide⟩

/-! ## No call fails -/

theorem CallShape_new : CallShape newRuleManager :=
  ⟨{ Key := "g", Value := "_, _, _", Tokens := [], Rule := [], RM := RMPtr.nil },
    { Key := "p", Value := "sub, dom, obj, act",
      Tokens := ["p_sub", "p_dom", "p_obj", "p_act"], Rule := [], RM := RMPtr.nil },
    by decide, by decide, by decide, by decide, by decide, by decide⟩

theorem CallShape_regrouped (m : RuleManager) (gast past : Assertion)
    (rule : List (List String)) (hv : stringsCount gast.Value = 3)
    (harity : ∀ t ∈ rule, t.length = 3) (ha : m.autobuildRoleLinks = true)
    (hp : m.rules.assertion "p" "p" = some past) (hp1 : ∀ t ∈ past.Rule, 1 ≤ t.length) :
    CallShape (m.regrouped gast rule) :=
  ⟨{ gast with Rule := rule, RM := RMPtr.rm }, past, regrouped_mapGet_grouping m gast rule ha,
    hv, harity, (regrouped_autobuild m gast rule).trans ha,
    (regrouped_assertion_other m gast rule "p" "p" (by decide)).trans hp, hp1⟩

theorem CallShape_call (m : RuleManager) (c : Call) (h : CallShape m) :
    ∃ m', m.call c = some m' ∧ CallShape m' := by
  obtain ⟨gast, past, hg, hv, harity, ha, hp, hp1⟩ := h
  have harity3 : ∀ t ∈ gast.Rule, 3 ≤ t.length := fun t ht => Nat.le_of_eq (harity t ht).symm
  cases c with
  | AddRoleForUserInDomain user role domain =>
    have heq := AddRoleForUserInDomain_eq m gast user role domain hg hv harity3
    by_cases hm : [user, role, domain] ∈ gast.Rule
    · simp only [hm, if_true] at heq
      exact ⟨m.regrouped gast gast.Rule, by simp only [RuleManager.call, heq, Option.map_some'],
        CallShape_regrouped m gast past _ hv harity ha hp hp1⟩
    · simp only [hm, if_false] at heq
      refine ⟨m.regrouped gast (gast.Rule ++ [[user, role, domain]]),
        by simp only [RuleManager.call, heq, Option.map_some'],
        CallShape_regrouped m gast past _ hv ?_ ha hp hp1⟩
      intro t ht
      rcases List.mem_append.mp ht with h | h
      · exact harity t h
      · simp at h
        simp [h]
  | DeleteUser user =>
    have hsafe : ∀ r ∈ gast.Rule, ¬ readsOutside r 0 [user] := fun r hr =>
      not_readsOutside_zero r user (Nat.le_trans (by decide) (harity3 r hr))
    have heq := removeFilteredGroupingRule_eq m gast 0 [user] hg hv hsafe
      (fun t ht _ => harity3 t ht)
    refine ⟨m.regrouped gast (gast.Rule.filter (fun r => decide (¬ specMatches r 0 [user]))),
      by simp only [RuleManager.call, RuleManager.DeleteUser, heq, Option.map_some'],
      CallShape_regrouped m gast past _ hv ?_ ha hp hp1⟩
    intro t ht
    exact harity t (List.mem_filter.mp ht).1
  | DeleteRole role =>
    have hsafeg : ∀ r ∈ gast.Rule, ¬ readsOutside r 1 [role] := fun r hr =>
      not_readsOutside_one r role (Nat.le_trans (by decide) (harity3 r hr))
    have hsafep : ∀ r ∈ past.Rule, ¬ readsOutside r 0 [role] := fun r hr =>
      not_readsOutside_zero r role (hp1 r hr)
    have heq := DeleteRole_eq m gast past role hg hv hp hsafeg (fun t ht _ => harity3 t ht)
      hsafep
    have hshape := CallShape_regrouped m gast past
      (gast.Rule.filter (fun t => decide (¬ specMatches t 1 [role]))) hv
      (fun t ht => harity t (List.mem_filter.mp ht).1) ha hp hp1
    obtain ⟨gast', past', hg', hv', harity', ha', hp', _⟩ := hshape
    refine ⟨{ m.regrouped gast (gast.Rule.filter (fun t => decide (¬ specMatches t 1 [role]))) with
        rules := (m.regrouped gast
            (gast.Rule.filter (fun t => decide (¬ specMatches t 1 [role])))).rules.setRule "p" "p"
          (past.Rule.filter (fun t => decide (¬ specMatches t 0 [role]))) },
      by simp only [RuleManager.call, heq], gast',
      { past' with Rule := past.Rule.filter (fun t => decide (¬ specMatches t 0 [role])) },
      ?_, hv', harity', ha', ?_, ?_⟩
    · simp only
      rw [mapGet_setRule_other _ "p" "p" "g" _ (by decide)]
      exact hg'
    · exact assertion_setRule_same _ "p" "p" past' _ hp'
    · intro t ht
      exact hp1 t (List.mem_filter.mp ht).1
  | GetAllRoles =>
    obtain ⟨found, hf, _⟩ := valuesLoop_eq 1 gast.Rule [] (fun t ht hn => by
      rw [goIndex_one, List.get?_eq_none] at hn
      have := harity3 t ht
      omega)
    refine ⟨m, ?_, gast, past, hg, hv, harity, ha, hp, hp1⟩
    simp [RuleManager.call, RuleManager.GetAllRoles, RuleManager.getAllNamedRoles,
      Model.GetValuesForFieldInRule, assertion_grouping m.rules gast hg, hf]

theorem CallShape_callAll (calls : List Call) (m : RuleManager) (h : CallShape m) :
    ∃ m', m.callAll calls = some m' ∧ CallShape m' := by
  induction calls generalizing m with
  | nil => exact ⟨m, rfl, h⟩
  | cons c cs ih =>
    obtain ⟨m₁, h₁, hs₁⟩ := CallShape_call m c h
    obtain ⟨m₂, h₂, hs₂⟩ := ih m₁ hs₁
    exact ⟨m₂, by simp [RuleManager.callAll, h₁, h₂], hs₂⟩

/-- C21. No call fails: every sequence of `AddRoleForUserInDomain`,
`DeleteUser`, `DeleteRole` and `GetAllRoles` calls, with any string arguments,
applied to `newRuleManager()` runs to its end without a panic (no index out of
range, no arity check of `buildRoleLinks` firing), and in the manager it
leaves every `g` tuple has exactly 3 fields. -/
theorem no_call_fails (calls : List Call) :
    ∃ (m : RuleManager) (rules : List (List String)),
      newRuleManager.callAll calls = some m ∧
      m.rules.GetRule "g" "g" = some rules ∧ ∀ t ∈ rules, t.length = 3 := by
  obtain ⟨m, hm, gast, _, hg, _, harity, _⟩ := CallShape_callAll calls newRuleManager
    CallShape_new
  exact ⟨m, gast.Rule, hm, by simp [Model.GetRule, assertion_grouping m.rules gast hg], harity⟩

/-- C21, at a concrete input: a sequence with every kind of call, the empty
string among the arguments, runs to its end; it leaves the grant of `alice`. -/
theorem no_call_fails_example :
    (newRuleManager.callAll
      [Call.GetAllRoles, Call.AddRoleForUserInDomain "" "" "", Call.DeleteRole "",
        Call.AddRoleForUserInDomain "alice" "admin" "corp",
        Call.AddRoleForUserInDomain "bob" "admin" "corp",
        Call.AddRoleForUserInDomain "carol" "root" "corp", Call.DeleteUser "bob",
        Call.DeleteRole "root", Call.GetAllRoles]).map
      (fun m => (m.rules.GetRule "g" "g", m.GetAllRoles)) =
      some (some [["alice", "admin", "corp"]], some ["admin"]) := by
  decide

/-! ## Stored lines -/

theorem splitCommaSpace_cons_cons (c₁ c₂ : Char) (rest acc : List Char) :
    splitCommaSpace (c₁ :: c₂ :: rest) acc =
      if c₁ = ',' ∧ c₂ = ' ' then acc.reverse :: splitCommaSpace rest []
      else splitCommaSpace (c₂ :: rest) (c₁ :: acc) := by
  rw [splitCommaSpace]

theorem splitCommaSpace_sep (s rest acc : List Char) (h : hasSeparator s = false) :
    splitCommaSpace (s ++ ',' :: ' ' :: rest) acc =
      (acc.reverse ++ s) :: splitCommaSpace rest [] := by
  induction s generalizing acc with
  | nil => simp [splitCommaSpace_cons_cons]
  | cons c t ih =>
    cases t with
    | nil =>
      have := ih (c :: acc) rfl
      simp only [List.nil_append] at this
      simp only [List.cons_append, List.nil_append, splitCommaSpace_cons_cons]
      have hc : ¬ (c = ',' ∧ ',' = ' ') := fun hh => absurd hh.2 (by decide)
      simp only [hc, if_false, this]
      simp
    | cons c₂ t' =>
      simp only [hasSeparator, Bool.or_eq_false_iff, decide_eq_false_iff_not] at h
      have := ih (c :: acc) h.2
      simp only [List.cons_append] at this
      simp only [List.cons_append, splitCommaSpace_cons_cons, h.1, if_false, this]
      simp

theorem splitCommaSpace_nosep (s acc : List Char) (h : hasSeparator s = false) :
    splitCommaSpace s acc = [acc.reverse ++ s] := by
  induction s generalizing acc with
  | nil => simp [splitCommaSpace]
  | cons c t ih =>
    cases t with
    | nil => simp [splitCommaSpace]
    | cons c₂ t' =>
      simp only [hasSeparator, Bool.or_eq_false_iff, decide_eq_false_iff_not] at h
      simp only [splitCommaSpace_cons_cons, h.1, if_false, ih (c :: acc) h.2]
      simp

theorem splitCommaSpace_join (fields : List (List Char)) (s acc : List Char)
    (hs : hasSeparator s = false) (hf : ∀ f ∈ fields, hasSeparator f = false) :
    splitCommaSpace (s ++ fields.flatMap (fun f => ',' :: ' ' :: f)) acc =
      (acc.reverse ++ s) :: fields := by
  induction fields generalizing s acc with
  | nil => simpa using splitCommaSpace_nosep s acc hs
  | cons f fs ih =>
    have hf' : hasSeparator f = false := hf f (List.mem_cons_self _ _)
    have hfs : ∀ g ∈ fs, hasSeparator g = false := fun g hg => hf g (List.mem_cons_of_mem _ hg)
    simp only [List.flatMap_cons, List.cons_append]
    rw [splitCommaSpace_sep s _ acc hs, ih f [] hf' hfs]
    simp

theorem lineTextOf_saveRuleLine (ptype : String) (rule : List String) (hlen : rule.length ≤ 6)
    (hne : ∀ f ∈ rule, f ≠ "") :
    (lineTextOf (saveRuleLine ptype rule)).data =
      ptype.data ++ (rule.map String.data).flatMap (fun f => ',' :: ' ' :: f) := by
  have hsep : (", " : String).data = [',', ' '] := rfl
  match rule, hlen, hne with
  | [], _, _ => simp [lineTextOf, saveRuleLine, appendColumn]
  | [a], _, hne =>
    have ha : a ≠ "" := hne a (by simp)
    simp [lineTextOf, saveRuleLine, appendColumn, ha, hsep, String.data_append]
  | [a, b], _, hne =>
    have ha : a ≠ "" := hne a (by simp)
    have hb : b ≠ "" := hne b (by simp)
    simp [lineTextOf, saveRuleLine, appendColumn, ha, hb, hsep, String.data_append]
  | [a, b, c], _, hne =>
    have ha : a ≠ "" := hne a (by simp)
    have hb : b ≠ "" := hne b (by simp)
    have hc : c ≠ "" := hne c (by simp)
    simp [lineTextOf, saveRuleLine, appendColumn, ha, hb, hc, hsep, String.data_append]
  | [a, b, c, d], _, hne =>
    have ha : a ≠ "" := hne a (by simp)
    have hb : b ≠ "" := hne b (by simp)
    have hc : c ≠ "" := hne c (by simp)
    have hd : d ≠ "" := hne d (by simp)
    simp [lineTextOf, saveRuleLine, appendColumn, ha, hb, hc, hd, hsep, String.data_append]
  | [a, b, c, d, e], _, hne =>
    have ha : a ≠ "" := hne a (by simp)
    have hb : b ≠ "" := hne b (by simp)
    have hc : c ≠ "" := hne c (by simp)
    have hd : d ≠ "" := hne d (by simp)
    have he : e ≠ "" := hne e (by simp)
    simp [lineTextOf, saveRuleLine, appendColumn, ha, hb, hc, hd, he, hsep, String.data_append]
  | [a, b, c, d, e, f], _, hne =>
    have ha : a ≠ "" := hne a (by simp)
    have hb : b ≠ "" := hne b (by simp)
    have hc : c ≠ "" := hne c (by simp)
    have hd : d ≠ "" := hne d (by simp)
    have he : e ≠ "" := hne e (by simp)
    have hf : f ≠ "" := hne f (by simp)
    simp [lineTextOf, saveRuleLine, appendColumn, ha, hb, hc, hd, he, hf, hsep,
      String.data_append]
  | _ :: _ :: _ :: _ :: _ :: _ :: _ :: _, hlen, _ =>
    simp only [List.length_cons] at hlen
    omega

theorem assertion_setRule_other (model : Model) (sec key sec' key' : String)
    (rule : List (List String)) (hne : sec' ≠ sec ∨ key' ≠ key) :
    (model.setRule sec key rule).assertion sec' key' = model.assertion sec' key' := by
  by_cases hs : sec' = sec
  · subst hs
    have hk : key' ≠ key := by
      rcases hne with h | h
      · exact absurd rfl h
      · exact h
    unfold Model.setRule
    cases hg : mapGet sec' model with
    | none => rfl
    | some am =>
      cases ha : mapGet key am with
      | none => simp [ha]
      | some ast =>
        simp [ha, Model.assertion, hg, mapGet_mapSet_same, mapGet_mapSet_other _ _ _ _ hk]
  · simp [Model.assertion, mapGet_setRule_other model sec key sec' rule hs]

theorem stringsSplit_lineTextOf (ptype : String) (rule : List String) (hlen : rule.length ≤ 6)
    (hfields : ∀ f ∈ rule, f ≠ "" ∧ stringsContains f = false)
    (hptype : stringsContains ptype = false) :
    stringsSplit (lineTextOf (saveRuleLine ptype rule)) = ptype :: rule := by
  unfold stringsSplit
  rw [lineTextOf_saveRuleLine ptype rule hlen (fun f hf => (hfields f hf).1),
    splitCommaSpace_join _ ptype.data [] hptype]
  · simp [Function.comp_def]
  · intro f hf
    obtain ⟨g, hg, rfl⟩ := List.mem_map.mp hf
    exact (hfields g hg).2

/-- C22, refuted as stated. On `newModel()` with `ptype` `p`: the rule
`alice, "", read` comes back as `alice, read`, and the one-field rule `a, b`
comes back as the two fields `a` and `b`. With an assertion of key `p, x`
defined, a rule saved under it is appended to the assertion `p` with `x` as
its first field; with an assertion of key `#x` defined, the line is taken for
a comment and nothing is appended. -/
theorem round_trip_counterexample :
    (loadRuleLine (saveRuleLine "p" ["alice", "", "read"]) newModel).map
        (fun m => m.GetRule "p" "p") = some (some [["alice", "read"]]) ∧
    (loadRuleLine (saveRuleLine "p" ["a, b"]) newModel).map
        (fun m => m.GetRule "p" "p") = some (some [["a", "b"]]) ∧
    (loadRuleLine (saveRuleLine "p, x" ["a"]) (newModel.addDef "p" "p, x" "sub").1).map
        (fun m => (m.GetRule "p" "p", m.GetRule "p" "p, x")) =
      some (some [["x", "a"]], some []) ∧
    loadRuleLine (saveRuleLine "#x" ["a"]) (newModel.addDef "#" "#x" "sub").1 =
      some (newModel.addDef "#" "#x" "sub").1 := by
  refine ⟨?_, ?_, ?_, ?_⟩ <;> decide

/-- C22, amended. Persistence round trip: for a `ptype` that starts with a
one-byte character (so that `ptype[:1]` is that character), does not contain
`", "`, does not start with `#` and whose `(ptype[:1], ptype)` assertion is
defined, and a rule of at most 6 fields none of which is empty or contains
`", "`, `loadRuleLine(saveRuleLine(ptype, rule), model)` returns, appends
exactly `rule` to the rule list of that assertion, and changes nothing else in
the model. -/
theorem round_trip (model : Model) (ptype sec : String) (ast : Assertion)
    (rule : List String)
    (hsec : firstByte ptype = some sec) (hdef : model.assertion sec ptype = some ast)
    (hlen : rule.length ≤ 6)
    (hfields : ∀ f ∈ rule, f ≠ "" ∧ stringsContains f = false)
    (hptype : stringsContains ptype = false) (hcomment : stringsHasPrefix ptype = false) :
    ∃ m' : Model,
      loadRuleLine (saveRuleLine ptype rule) model = some m' ∧
      m' = model.setRule sec ptype (ast.Rule ++ [rule]) ∧
      m'.assertion sec ptype = some { ast with Rule := ast.Rule ++ [rule] } ∧
      ∀ sec' key', (sec' ≠ sec ∨ key' ≠ ptype) →
        m'.assertion sec' key' = model.assertion sec' key' := by
  have hsplit := stringsSplit_lineTextOf ptype rule hlen hfields hptype
  have hdata := lineTextOf_saveRuleLine ptype rule hlen (fun f hf => (hfields f hf).1)
  obtain ⟨c, cs, hc⟩ : ∃ c cs, ptype.data = c :: cs := by
    unfold firstByte at hsec
    cases hp : ptype.data with
    | nil => simp [hp] at hsec
    | cons c cs => exact ⟨c, cs, rfl⟩
  have hne : lineTextOf (saveRuleLine ptype rule) ≠ "" := by
    intro h
    rw [h, hc] at hdata
    simp at hdata
  have hpre : stringsHasPrefix (lineTextOf (saveRuleLine ptype rule)) = false := by
    unfold stringsHasPrefix at hcomment ⊢
    rw [hdata, hc]
    rw [hc] at hcomment
    simpa using hcomment
  refine ⟨model.setRule sec ptype (ast.Rule ++ [rule]), ?_, rfl,
    assertion_setRule_same model sec ptype ast _ hdef,
    fun sec' key' h => assertion_setRule_other model sec ptype sec' key' _ h⟩
  simp [loadRuleLine, loadRuleLineToModel, hne, hpre, hsplit, hsec, hdef]

/-- C22 amended, at a concrete input: the `p` rule `alice, data, read` saved
and loaded into `newModel()`. -/
theorem round_trip_witness :
    ∃ m' : Model,
      loadRuleLine (saveRuleLine "p" ["alice", "data", "read"]) newModel = some m' ∧
      m' = newModel.setRule "p" "p" ([] ++ [["alice", "data", "read"]]) ∧
      m'.GetRule "p" "p" = some [["alice", "data", "read"]] := by
  obtain ⟨m', h₁, h₂, _, _⟩ := round_trip newModel "p" "p"
    { Key := "p", Value := "sub, dom, obj, act",
      Tokens := ["p_sub", "p_dom", "p_obj", "p_act"], Rule := [], RM := RMPtr.nil }
    ["alice", "data", "read"] (by decide) (by decide) (by decide) (by decide) (by decide)
    (by decide)
  refine ⟨m', h₁, h₂, ?_⟩
  rw [h₂]
  decide

/-- A `ptype` that starts with a character of several bytes: `key[:1]` is the
first byte of `é` alone, no section has that name, and the load fails, also
when a section named `é` holds an assertion of that key. -/
theorem round_trip_multibyte_example :
    ((newModel.addDef "é" "é" "sub").1.assertion "é" "é").isSome = true ∧
    firstByte "é" = none ∧
    loadRuleLine (saveRuleLine "é" ["a"]) (newModel.addDef "é" "é" "sub").1 = none := by
  refine ⟨?_, ?_, ?_⟩ <;> decide

end Ladon
